import Mathlib

/-!
Shallow embedding of the vimage image-processing library (Go) and proofs
about its specification.

Conventions of the embedding:
* 8-bit RGBA pixels are quadruples of natural numbers; `color.Color.RGBA()`
  values (16-bit, alpha-premultiplied) are obtained from an 8-bit channel `c`
  as `257 * c` (Go computes `uint32(c) * 0x101`).
* an `image.Image` is a rectangle `[0,w) × [0,h)` together with a pixel
  function; reading out of bounds yields the zero pixel and writing out of
  bounds is a no-op, exactly as `image.RGBA.At` / `image.RGBA.SetRGBA` behave.
* Go `float32` / `float64` arithmetic is modelled by exact arithmetic on `ℚ`;
  `math.Sqrt` is modelled by an abstract function parameter where its value
  (not merely its order) matters.
* machine integers are modelled by `ℤ` / `ℕ` with explicit truncation
  (`% 2 ^ 31`, `% 256`) where the Go code masks or narrows.
* fallible Go functions returning `(T, error)` are modelled as
  `Except String T`.
-/

namespace Vimage

/-- An 8-bit RGBA pixel (Go `color.RGBA`). -/
structure Pixel where
  r : ℕ
  g : ℕ
  b : ℕ
  a : ℕ
deriving Repr, DecidableEq

/-- The zero pixel `color.RGBA{0, 0, 0, 0}` (fully transparent). -/
def Pixel.transparent : Pixel := ⟨0, 0, 0, 0⟩

/-- An image with bounds `[0, width) × [0, height)` (Go `image.RGBA` with
`Min = (0,0)`, the form every processor in the repository produces via
`image.NewRGBA`). -/
structure Img where
  width : ℕ
  height : ℕ
  pix : ℤ → ℤ → Pixel

/-- Point `(x, y)` lies inside the image bounds. -/
def Img.inBounds (m : Img) (x y : ℤ) : Prop :=
  0 ≤ x ∧ x < (m.width : ℤ) ∧ 0 ≤ y ∧ y < (m.height : ℤ)

instance (m : Img) (x y : ℤ) : Decidable (m.inBounds x y) := by
  unfold Img.inBounds; infer_instance

/-- `image.RGBA.At`: out-of-bounds reads return the zero color. -/
def Img.get (m : Img) (x y : ℤ) : Pixel :=
  if m.inBounds x y then m.pix x y else Pixel.transparent

/-! ## Pipeline executor (src/processor.go, `Process`) -/

/-- src/processor.go lines 116-127: run the processors in order, feeding each
output into the next step; on the first error stop and return it (`return nil,
err`: no image accompanies the error). -/
def processChain {α : Type} (img : α) (ps : List (α → Except String α)) :
    Except String α :=
  match ps with
  | [] => .ok img
  | p :: rest =>
    match p img with
    | .error e => .error e
    | .ok next => processChain next rest

theorem processChain_append {α : Type} (img : α)
    (ps qs : List (α → Except String α)) :
    processChain img (ps ++ qs) =
      match processChain img ps with
      | .error e => .error e
      | .ok mid => processChain mid qs := by
  induction ps generalizing img with
  | nil => rfl
  | cons p rest ih =>
    simp only [List.cons_append, processChain]
    cases p img with
    | error e => rfl
    | ok next => exact ih next

/-! ## Processor constructors (src/mosaic.go `NewMosaicProcessor`,
overlay `NewOverlayProcessor`) -/

/-- A mosaic region (src/mosaic.go `MosaicRegion`). -/
structure MosaicRegion where
  fromX : ℤ
  fromY : ℤ
  toX : ℤ
  toY : ℤ
deriving Repr, DecidableEq

/-- The Go `Direction` string type; `unknown` stands for any string other
than the four recognized constants and selects the `default` branch of
`calculateMosaicRegion`. -/
inductive Direction where
  | left
  | right
  | top
  | bottom
  | unknown
deriving Repr, DecidableEq

/-- The `MosaicProcessor` struct (src/mosaic.go). -/
structure MosaicProcessorS where
  regions : List MosaicRegion
  mosaicPercent : ℚ
  startDirection : Direction

/-- src/mosaic.go lines 267-279, `NewMosaicProcessor`: an out-of-range
percent is silently replaced by the default `1.0`; the Go signature returns
only `*MosaicProcessor`, there is no error result. -/
def NewMosaicProcessor (regions : List MosaicRegion) (mosaicPercent : ℚ)
    (startDirection : Direction) : MosaicProcessorS :=
  { regions := regions
    mosaicPercent :=
      if mosaicPercent < 0 ∨ 1 < mosaicPercent then 1 else mosaicPercent
    startDirection := startDirection }

/-- The `OverlayProcessor` struct (overlay source file). Only the fields the
claims touch are carried; the overlay image is optional since Go permits a
nil `OverlayImage`. -/
structure OverlayProcessorS where
  overlayImage : Option Img
  x : ℤ
  y : ℤ
  opacity : ℚ
  scale : ℚ

/-- Overlay source, `NewOverlayProcessor`: out-of-range opacity is silently
replaced by `1.0` (fully opaque) and non-positive scale by `1.0`; the Go
signature returns only `*OverlayProcessor`, there is no error result. -/
def NewOverlayProcessor (overlayImage : Option Img) (x y : ℤ)
    (opacity scale : ℚ) : OverlayProcessorS :=
  { overlayImage := overlayImage
    x := x
    y := y
    opacity := if opacity < 0 ∨ 1 < opacity then 1 else opacity
    scale := if scale ≤ 0 then 1 else scale }

/-! ## Font cache (src/font.go, `LoadFont`) -/

/-- The two package-level cached font slots of src/font.go. -/
inductive FontSlot where
  | noto
  | harmony
deriving Repr, DecidableEq

/-- The package-level mutable state: `notoSansSCWghtFont` and
`harmonyOSSansSCBlack` (fonts are modelled as opaque numeric handles). -/
structure FontCache where
  notoSansSCWghtFont : Option ℕ
  harmonyOSSansSCBlack : Option ℕ
deriving Repr, DecidableEq

/-- Dereference the `**truetype.Font` slot pointer passed to `LoadFont`. -/
def FontCache.get (st : FontCache) (s : FontSlot) : Option ℕ :=
  match s with
  | .noto => st.notoSansSCWghtFont
  | .harmony => st.harmonyOSSansSCBlack

/-- Assign through the `**truetype.Font` slot pointer. -/
def FontCache.set (st : FontCache) (s : FontSlot) (f : ℕ) : FontCache :=
  match s with
  | .noto => { st with notoSansSCWghtFont := some f }
  | .harmony => { st with harmonyOSSansSCBlack := some f }

/-- What a single `LoadFont` call did (observable side effects). -/
inductive LoadOutcome where
  | cached (f : ℕ)
  | readLocalFile (f : ℕ)
  | downloaded (f : ℕ)
  | panicked
deriving Repr, DecidableEq

/-- The environment of a `LoadFont` call: whether the local file exists,
is readable and parses (`some` font), whether a download URL was supplied,
and what a download would produce. -/
structure FontEnv where
  localParse : FontSlot → Option ℕ
  hasUrl : FontSlot → Bool
  download : FontSlot → Option ℕ

/-- src/font.go lines 47-100, `LoadFont` (single-threaded body under
`loadFontMutex`). Note the local-file branch: the source executes
`notoSansSCWghtFont = font` (line 62), assigning the package-level noto
variable rather than `*font`, so a successful local read never populates the
slot that was passed in. The download branch executes `*font = fontObj`. -/
def LoadFont (env : FontEnv) (slot : FontSlot) (st : FontCache) :
    LoadOutcome × FontCache :=
  match st.get slot with
  | some f => (.cached f, st)
  | none =>
    match env.localParse slot with
    | some f => (.readLocalFile f, st.set .noto f)
    | none =>
      if env.hasUrl slot = false then (.panicked, st)
      else
        match env.download slot with
        | some f => (.downloaded f, st.set slot f)
        | none => (.panicked, st)

/-- The environment of `LoadHarmonyOSSansSCBlack` (src/font.go lines 43-45):
the local file `/opt/HarmonyOS_Sans_SC_Black.ttf` is present and parses, and
the download URL is the empty string. -/
def harmonyEnv : FontEnv :=
  { localParse := fun _ => some 7
    hasUrl := fun _ => false
    download := fun _ => none }

/-- The initial state: both package variables are nil. -/
def emptyFontCache : FontCache := ⟨none, none⟩

/-! ## Character wrapping (src/draw_rect.go, `wrapTextByRune`) -/

/-- Loop body of `splitByNewline` (src/draw_rect.go lines 295-308): `cur`
accumulates the current segment; a newline flushes it. -/
def splitGo (cur : List Char) : List Char → List (List Char)
  | [] => [cur]
  | r :: rest =>
    if r = '\n' then cur :: splitGo [] rest else splitGo (cur ++ [r]) rest

/-- src/draw_rect.go `splitByNewline`. Strings are modelled as lists of
runes. -/
def splitByNewline (s : List Char) : List (List Char) := splitGo [] s

/-- Inner loop of `wrapTextByRune` over one segment (src/draw_rect.go lines
276-289). `w` abstracts `float64(d.MeasureString(next)) / 64.0` for the given
font face. A finished line is flushed when appending the next rune would
overflow `maxWidth`, except that a line is never left empty. -/
def wrapSegGo (w : List Char → ℚ) (maxWidth : ℚ) (current : List Char) :
    List Char → List (List Char)
  | [] => if current = [] then [] else [current]
  | r :: rest =>
    let next := current ++ [r]
    if w next ≤ maxWidth ∨ current = [] then wrapSegGo w maxWidth next rest
    else current :: wrapSegGo w maxWidth [r] rest

/-- src/draw_rect.go `joinWithNewline` (lines 310-320): left fold
concatenating the lines with a newline between them. -/
def joinWithNewline (lines : List (List Char)) : List Char :=
  match lines with
  | [] => []
  | l :: rest => rest.foldl (fun acc li => acc ++ '\n' :: li) l

/-- src/draw_rect.go lines 267-293, `wrapTextByRune`: split on explicit
newlines, wrap each segment by rune, join all produced lines. -/
def wrapTextByRune (w : List Char → ℚ) (s : List Char) (maxWidth : ℚ) :
    List Char :=
  joinWithNewline ((splitByNewline s).flatMap (wrapSegGo w maxWidth []))

/-! ## Zoom processor (zoom source file) -/

/-- The `ZoomMode` enumeration. -/
inductive ZoomMode where
  | exactMode
  | ratioMode
  | byWidth
  | byHeight
  | byMax
  | byMin
deriving Repr, DecidableEq

/-- The `ZoomProcessor` struct (scaler field omitted: it selects the
interpolation kernel and does not influence the output dimensions). -/
structure ZoomProcessorS where
  width : ℤ
  height : ℤ
  ratioVal : ℚ
  mode : ZoomMode

/-- Go `math.Round`: round half away from zero. -/
def goRound (q : ℚ) : ℤ := if 0 ≤ q then ⌊q + 1 / 2⌋ else -⌊-q + 1 / 2⌋

/-- zoom source, `calculateTargetSize`: target dimensions from the zoom
mode. Division of two `ℚ`-casts models Go float division (the claims only
exercise the ratio mode, where no division occurs). -/
def calculateTargetSize (p : ZoomProcessorS) (origWidth origHeight : ℤ) :
    ℤ × ℤ :=
  match p.mode with
  | .exactMode => (p.width, p.height)
  | .ratioMode =>
    (goRound ((origWidth : ℚ) * p.ratioVal),
     goRound ((origHeight : ℚ) * p.ratioVal))
  | .byWidth =>
    let ratio : ℚ := (p.width : ℚ) / (origWidth : ℚ)
    (p.width, goRound ((origHeight : ℚ) * ratio))
  | .byHeight =>
    let ratio : ℚ := (p.height : ℚ) / (origHeight : ℚ)
    (goRound ((origWidth : ℚ) * ratio), p.height)
  | .byMax =>
    let ratio : ℚ :=
      if origHeight ≤ origWidth then (p.width : ℚ) / (origWidth : ℚ)
      else (p.height : ℚ) / (origHeight : ℚ)
    (goRound ((origWidth : ℚ) * ratio), goRound ((origHeight : ℚ) * ratio))
  | .byMin =>
    let ratio : ℚ :=
      if origWidth ≤ origHeight then (p.width : ℚ) / (origWidth : ℚ)
      else (p.height : ℚ) / (origHeight : ℚ)
    (goRound ((origWidth : ℚ) * ratio), goRound ((origHeight : ℚ) * ratio))

/-- zoom source, `Process`, restricted to the output dimensions (the pixel
resampling delegates to `golang.org/x/image/draw` and does not affect them):
compute the target size and reject non-positive dimensions with an error. -/
def ZoomProcessorS.processDims (p : ZoomProcessorS)
    (origWidth origHeight : ℤ) : Except String (ℤ × ℤ) :=
  let t := calculateTargetSize p origWidth origHeight
  if t.1 ≤ 0 ∨ t.2 ≤ 0 then .error ("invalid zoom size") else .ok t

/-- zoom source, `NewZoomRatioProcessor`. -/
def NewZoomRatioProcessor (ratio : ℚ) : ZoomProcessorS :=
  ⟨0, 0, ratio, .ratioMode⟩

/-! ## Overlay opacity adjustment (overlay source, `Process` lines 107-139) -/

/-- `uint32(float64 value)` of a non-negative quantity: truncation toward
zero, i.e. the floor. -/
def truncNonneg (q : ℚ) : ℕ := (⌊q⌋).toNat

/-- One pixel of the opacity-adjusted overlay: the source color is read with
`RGBA()` (16-bit channels `257 * c`), the alpha is scaled by the opacity and
truncated, and the `color.RGBA64` is stored into an `image.RGBA`, narrowing
every channel by `>> 8`. -/
def adjustPixelOpacity (opacity : ℚ) (c : Pixel) : Pixel :=
  ⟨257 * c.r / 256, 257 * c.g / 256, 257 * c.b / 256,
   truncNonneg ((257 * c.a : ℕ) * opacity) / 256⟩

/-- Overlay source lines 107-134: only when `0 < opacity < 1` is a new RGBA
image produced whose every pixel has its alpha scaled by the opacity factor;
otherwise the overlay image is used as is. -/
def overlayAdjust (opacity : ℚ) (m : Img) : Img :=
  if 0 < opacity ∧ opacity < 1 then
    { m with pix := fun x y => adjustPixelOpacity opacity (m.get x y) }
  else m

/-! ## Circular mask (`Circle`, captcha cut source) -/

/-- Squared distance from pixel `(x, y)` to the center of an `n × n` buffer.
The source compares `math.Sqrt` of this quantity with the radius `n / 2`;
since both sides are non-negative and the square root is monotone, the
comparison is equivalent to comparing the squares, which keeps the embedding
inside `ℚ`. -/
def circleDistSq (n : ℕ) (x y : ℤ) : ℚ :=
  ((x : ℚ) - n / 2) ^ 2 + ((y : ℚ) - n / 2) ^ 2

/-- `Circle`: error on a non-square input; otherwise keep pixels whose
distance to the center is at most `width / 2` and make all others fully
transparent. -/
def Circle (m : Img) : Except String Img :=
  if m.width ≠ m.height then
    .error ("image must be square for circular cropping")
  else
    .ok
      { width := m.width
        height := m.height
        pix := fun x y =>
          if circleDistSq m.width x y ≤ ((m.width : ℚ) / 2) ^ 2 then
            m.get x y
          else Pixel.transparent }

/-! ## Rounded corners (rounded-corner source, `Process` and
`getCornerAlpha`) -/

/-- The falloff factor as a function of the distance `d` to the corner's
circle center: full opacity up to the radius, linear falloff over the
anti-aliasing band of width `fade`, zero beyond. -/
def cornerFalloff (radius fade d : ℚ) : ℚ :=
  if d ≤ radius then 1
  else if d ≤ radius + fade then 1 - (d - radius) / fade
  else 0

/-- Corner-square test of `getCornerAlpha`: if `(x, y)` lies in one of the
four corner squares (bounds `Min = 0`, `Max = (w, h)`), the squared distance
to that corner's circle center, else `none` (the function then returns
opacity 1). The source takes `math.Sqrt` of this quantity. -/
def cornerDistSq (w h radius : ℚ) (x y : ℚ) : Option ℚ :=
  if x < radius ∧ y < radius then
    some ((x - radius) ^ 2 + (y - radius) ^ 2)
  else if w - radius ≤ x ∧ y < radius then
    some ((x - (w - radius - 1)) ^ 2 + (y - radius) ^ 2)
  else if x < radius ∧ h - radius ≤ y then
    some ((x - radius) ^ 2 + (y - (h - radius - 1)) ^ 2)
  else if w - radius ≤ x ∧ h - radius ≤ y then
    some ((x - (w - radius - 1)) ^ 2 + (y - (h - radius - 1)) ^ 2)
  else none

/-- Rounded-corner source, `getCornerAlpha` for a pixel, parameterized by
`sqrtA`, the abstract model of `math.Sqrt`. -/
def getCornerAlpha (sqrtA : ℚ → ℚ) (x y : ℤ) (w h : ℕ) (radius fade : ℚ) :
    ℚ :=
  match cornerDistSq (w : ℚ) (h : ℚ) radius (x : ℚ) (y : ℚ) with
  | none => 1
  | some dsq => cornerFalloff radius fade (sqrtA dsq)

/-- Rounded-corner source, `RoundedCornerProcessor.Process` (the falloff
variant): radius ≤ 0 copies the input; otherwise the radius is clamped to at
most half of each dimension and every pixel's alpha is scaled by
`getCornerAlpha` with the fixed 1.5-pixel band. Channels are read with
`RGBA()` and narrowed back with `>> 8`. The Go function always returns a nil
error. -/
def roundedCornerProcess (sqrtA : ℚ → ℚ) (pRadius : ℤ) (m : Img) : Img :=
  if pRadius ≤ 0 then { m with pix := fun x y => m.get x y }
  else
    let radius : ℤ :=
      min pRadius (min ((m.width : ℤ) / 2) ((m.height : ℤ) / 2))
    { m with
      pix := fun x y =>
        let alpha := getCornerAlpha sqrtA x y m.width m.height (radius : ℚ)
          (3 / 2)
        if 0 < alpha then
          let c := m.get x y
          ⟨257 * c.r / 256, 257 * c.g / 256, 257 * c.b / 256,
           truncNonneg ((257 * c.a / 256 : ℕ) * alpha)⟩
        else Pixel.transparent }

/-! ## Mosaic processor (src/mosaic.go) -/

/-- src/mosaic.go lines 131-140, `clampUint8`. -/
def clampUint8 (v : ℤ) : ℕ :=
  if v < 0 then 0 else if 255 < v then 255 else v.toNat

/-- src/mosaic.go line 241: the deterministic per-tile seed
`(x*1103515245 + y*69069) & 0x7fffffff`; masking the low 31 bits of the
two's-complement value is reduction modulo `2 ^ 31`. -/
def mosaicSeed (x y : ℤ) : ℤ := (x * 1103515245 + y * 69069) % 2 ^ 31

/-- src/mosaic.go lines 244-246: per-channel offset
`(seed >> shift) % 21 - 10` (the seed is non-negative, so the arithmetic
shift is division and Go `%` agrees with `Int.emod`). -/
def mosaicOffset (seed : ℤ) (shift : ℕ) : ℤ := seed / 2 ^ shift % 21 - 10

/-- src/mosaic.go lines 220-229: the source pixels of one tile, row by row
(reads use `img.At`, the original input image). -/
def blockPixelList (src : Img) (x y ex ey : ℤ) : List Pixel :=
  (List.range (ey - y).toNat).flatMap fun j : ℕ =>
    (List.range (ex - x).toNat).map fun i : ℕ =>
      src.get (x + (i : ℤ)) (y + (j : ℤ))

/-- Channel total: the `totalR`-style accumulator of src/mosaic.go lines
217-228. The accumulators are `uint32`, so the running sum of `RGBA()`
channel values (`257 * c`, up to 65535 each) wraps modulo `2 ^ 32`; since
addition commutes with the reduction, wrapping the final sum is the same as
wrapping at every step. (`uint32(pixelCount)` in the division below is the
identity for every allocatable image — the count is bounded by the image
area — and is therefore modelled as the plain count.) -/
def chanSum (f : Pixel → ℕ) (l : List Pixel) : ℕ :=
  (l.map fun c => 257 * f c).sum % 2 ^ 32

/-- src/mosaic.go lines 234-237: `uint8(total / pixelCount / 256)`; the final
`% 256` is the `uint8` narrowing. -/
def avg16 (total n : ℕ) : ℕ := total / n / 256 % 256

/-- src/mosaic.go lines 232-256: the one color written to every pixel of a
tile with top-left corner `(x, y)`: per-channel mean plus the seeded offsets
on R, G and B, clamped to `[0, 255]`; alpha is the unmodified mean. -/
def mosaicBlockColor (src : Img) (x y ex ey : ℤ) : Pixel :=
  let l := blockPixelList src x y ex ey
  let n := l.length
  let seed := mosaicSeed x y
  ⟨clampUint8 (avg16 (chanSum Pixel.r l) n + mosaicOffset seed 0),
   clampUint8 (avg16 (chanSum Pixel.g l) n + mosaicOffset seed 8),
   clampUint8 (avg16 (chanSum Pixel.b l) n + mosaicOffset seed 16),
   avg16 (chanSum Pixel.a l) n⟩

/-- The nested `SetRGBA` loops of src/mosaic.go lines 254-258: store one
color at every point of `[x, ex) × [y, ey)`; `SetRGBA` ignores out-of-bounds
points. -/
def setRect (dst : Img) (x y ex ey : ℤ) (c : Pixel) : Img :=
  { dst with
    pix := fun u v =>
      if x ≤ u ∧ u < ex ∧ y ≤ v ∧ v < ey ∧ dst.inBounds u v then c
      else dst.pix u v }

/-- src/mosaic.go lines 216-259: one tile; the write happens only when the
tile contains at least one pixel (`pixelCount > 0`). -/
def writeBlock (src dst : Img) (x y ex ey : ℤ) : Img :=
  if 0 < (blockPixelList src x y ex ey).length then
    setRect dst x y ex ey (mosaicBlockColor src x y ex ey)
  else dst

/-- The start coordinates of the loop `for v := aFrom; v < aTo; v += s`
(src/mosaic.go lines 204-205). -/
def blockStarts (aFrom aTo : ℤ) (s : ℕ) : List ℤ :=
  (List.range (((aTo - aFrom).toNat + s - 1) / s)).map fun i : ℕ =>
    aFrom + (i : ℤ) * (s : ℤ)

/-- src/mosaic.go lines 204-261: iterate the tiles of the blurred rectangle
row-major, clipping each tile end to the rectangle. -/
def applyRegionBlocks (src dst : Img) (aFx aFy aTx aTy : ℤ) (s : ℕ) : Img :=
  (blockStarts aFy aTy s).foldl
    (fun d yb =>
      (blockStarts aFx aTx s).foldl
        (fun d2 xb =>
          writeBlock src d2 xb yb (min (xb + (s : ℤ)) aTx)
            (min (yb + (s : ℤ)) aTy))
        d)
    dst

/-- Go `int(float32 value)`: truncation toward zero. -/
def truncQ (q : ℚ) : ℤ := if q < 0 then -⌊-q⌋ else ⌊q⌋

/-- src/mosaic.go lines 64-95, `calculateMosaicRegion`: take `percent` of the
region anchored at the edge given by the direction; an unrecognized
direction keeps the whole region. -/
def calculateMosaicRegion (fromX fromY toX toY : ℤ) (percent : ℚ)
    (direction : Direction) : ℤ × ℤ × ℤ × ℤ :=
  let width := toX - fromX
  let height := toY - fromY
  match direction with
  | .left => (fromX, fromY, fromX + truncQ ((width : ℚ) * percent), toY)
  | .right => (toX - truncQ ((width : ℚ) * percent), fromY, toX, toY)
  | .top => (fromX, fromY, toX, fromY + truncQ ((height : ℚ) * percent))
  | .bottom => (fromX, toY - truncQ ((height : ℚ) * percent), toX, toY)
  | .unknown => (fromX, fromY, toX, toY)

/-- src/mosaic.go lines 196-202: the adaptive tile size, at least 10 and at
least a tenth of each dimension of the blurred rectangle (Go `/` on `int`
truncates toward zero). -/
def mosaicSizeOf (aFx aFy aTx aTy : ℤ) : ℕ :=
  let dx := (aTx - aFx).tdiv 10
  let dy := (aTy - aFy).tdiv 10
  let s1 : ℤ := if 10 < dx then dx else 10
  let s2 : ℤ := if s1 < dy then dy else s1
  s2.toNat

/-- src/mosaic.go lines 174-185: clamp a region to the buffer bounds. -/
def clampRegion (r : MosaicRegion) (w h : ℤ) : MosaicRegion :=
  ⟨max r.fromX 0, max r.fromY 0, min r.toX w, min r.toY h⟩

/-- src/mosaic.go lines 186-189: a region is skipped when it is empty or
inverted after clamping. -/
def regionSkipped (r : MosaicRegion) (w h : ℤ) : Prop :=
  (clampRegion r w h).toX ≤ (clampRegion r w h).fromX ∨
  (clampRegion r w h).toY ≤ (clampRegion r w h).fromY

instance (r : MosaicRegion) (w h : ℤ) : Decidable (regionSkipped r w h) := by
  unfold regionSkipped; infer_instance

/-- The blurred rectangle actually processed for a (non-skipped) region:
its clamped coordinates transformed by `calculateMosaicRegion`. -/
def blurRect (r : MosaicRegion) (w h : ℤ) (percent : ℚ)
    (direction : Direction) : ℤ × ℤ × ℤ × ℤ :=
  calculateMosaicRegion (clampRegion r w h).fromX (clampRegion r w h).fromY
    (clampRegion r w h).toX (clampRegion r w h).toY percent direction

/-- Membership of a point in one of the rectangles `(fromX, fromY, toX,
toY)` handled by the mosaic code. -/
def inRect (rect : ℤ × ℤ × ℤ × ℤ) (u v : ℤ) : Prop :=
  rect.1 ≤ u ∧ u < rect.2.2.1 ∧ rect.2.1 ≤ v ∧ v < rect.2.2.2

instance (rect : ℤ × ℤ × ℤ × ℤ) (u v : ℤ) : Decidable (inRect rect u v) := by
  unfold inRect; infer_instance

/-- src/mosaic.go lines 167-262: process one region of the region list. -/
def applyRegion (src dst : Img) (percent : ℚ) (direction : Direction)
    (r : MosaicRegion) : Img :=
  if regionSkipped r src.width src.height then dst
  else
    let a := blurRect r src.width src.height percent direction
    applyRegionBlocks src dst a.1 a.2.1 a.2.2.1 a.2.2.2
      (mosaicSizeOf a.1 a.2.1 a.2.2.1 a.2.2.2)

/-- src/mosaic.go lines 150-265, `MosaicProcessor.Process`: copy the source,
process every region in order, and return the result with a nil error (the
function has no failing path). -/
def MosaicProcessorS.process (p : MosaicProcessorS) (src : Img) :
    Except String Img :=
  let dst0 : Img := ⟨src.width, src.height, fun x y => src.get x y⟩
  .ok (p.regions.foldl
    (fun d r => applyRegion src d p.mosaicPercent p.startDirection r) dst0)

/-! ## Helper lemmas for text wrapping -/

theorem splitGo_flatten (s : List Char) :
    ∀ cur, (splitGo cur s).flatten = cur ++ s.filter (fun c => c ≠ '\n') := by
  induction s with
  | nil => intro cur; simp [splitGo]
  | cons r rest ih =>
    intro cur
    by_cases h : r = '\n'
    · subst h; simp [splitGo, ih]
    · simp [splitGo, h, ih]

theorem splitGo_no_newline (s : List Char) :
    ∀ cur, '\n' ∉ cur → ∀ l ∈ splitGo cur s, '\n' ∉ l := by
  induction s with
  | nil =>
    intro cur hc l hl
    simp only [splitGo, List.mem_singleton] at hl
    exact hl ▸ hc
  | cons r rest ih =>
    intro cur hc l hl
    by_cases h : r = '\n'
    · subst h
      rw [show splitGo cur ('\n' :: rest) = cur :: splitGo [] rest from by
        simp [splitGo]] at hl
      rcases List.mem_cons.mp hl with h1 | h2
      · exact h1 ▸ hc
      · exact ih [] (by simp) l h2
    · rw [show splitGo cur (r :: rest) = splitGo (cur ++ [r]) rest from by
        simp [splitGo, h]] at hl
      refine ih (cur ++ [r]) ?_ l hl
      simp only [List.mem_append, List.mem_singleton]
      rintro (hbad | hbad)
      · exact hc hbad
      · exact h hbad.symm

theorem wrapSegGo_flatten (w : List Char → ℚ) (mw : ℚ) (seg : List Char) :
    ∀ current, (wrapSegGo w mw current seg).flatten = current ++ seg := by
  induction seg with
  | nil =>
    intro current
    by_cases h : current = [] <;> simp [wrapSegGo, h]
  | cons r rest ih =>
    intro current
    by_cases h : w (current ++ [r]) ≤ mw ∨ current = []
    · simp [wrapSegGo, if_pos h, ih]
    · simp [wrapSegGo, if_neg h, ih]

theorem wrapSegGo_no_newline (w : List Char → ℚ) (mw : ℚ)
    (seg current : List Char) (hseg : '\n' ∉ seg) (hcur : '\n' ∉ current) :
    ∀ l ∈ wrapSegGo w mw current seg, '\n' ∉ l := by
  intro l hl hmem
  have hfl : '\n' ∈ (wrapSegGo w mw current seg).flatten :=
    List.mem_flatten.mpr ⟨l, hl, hmem⟩
  rw [wrapSegGo_flatten] at hfl
  rcases List.mem_append.mp hfl with h | h
  · exact hcur h
  · exact hseg h

theorem foldl_join (rest : List (List Char)) :
    ∀ init, rest.foldl (fun acc li => acc ++ '\n' :: li) init
      = init ++ rest.flatMap (fun li => '\n' :: li) := by
  induction rest with
  | nil => intro init; simp
  | cons a t ih => intro init; simp [ih, List.flatMap_cons]

theorem flatMap_newline_filter (rest : List (List Char))
    (h : ∀ l ∈ rest, '\n' ∉ l) :
    (rest.flatMap fun li => '\n' :: li).filter (fun c => c ≠ '\n')
      = rest.flatten := by
  induction rest with
  | nil => rfl
  | cons a t ih =>
    rw [List.flatMap_cons, List.filter_append, List.flatten_cons,
      ih fun l hl => h l (List.mem_cons_of_mem a hl)]
    congr 1
    rw [List.filter_cons_of_neg (by simp)]
    refine List.filter_eq_self.mpr fun c hc => ?_
    have hne : c ≠ '\n' := fun hEq => h a (List.mem_cons_self a t) (hEq ▸ hc)
    simpa using hne

theorem joinWithNewline_filter (lines : List (List Char))
    (h : ∀ l ∈ lines, '\n' ∉ l) :
    (joinWithNewline lines).filter (fun c => c ≠ '\n') = lines.flatten := by
  match lines with
  | [] => rfl
  | l :: rest =>
    rw [joinWithNewline, foldl_join, List.filter_append, List.flatten_cons,
      flatMap_newline_filter rest fun li hli => h li (List.mem_cons_of_mem l hli)]
    congr 1
    refine List.filter_eq_self.mpr fun c hc => ?_
    have hne : c ≠ '\n' := fun hEq => h l (List.mem_cons_self l rest) (hEq ▸ hc)
    simpa using hne

theorem flatten_flatMap_wrap (w : List Char → ℚ) (mw : ℚ)
    (segs : List (List Char)) :
    ((segs.flatMap (wrapSegGo w mw [])).flatten) = segs.flatten := by
  induction segs with
  | nil => rfl
  | cons a t ih =>
    simp [List.flatMap_cons, List.flatten_append, wrapSegGo_flatten, ih]

/-! ## Claim theorems: pipeline, constructors, font cache, wrapping -/

/-- C2, counterexample. The claim says the propagated pipeline error
identifies the ordinal position of the failing step. Two chains whose sole
failing step sits at index 1 and at index 0 respectively propagate the very
same error value `"boom"`, so the returned error cannot identify which step
failed: `Process` (src/processor.go lines 116-127) returns the step's error
unchanged, with no wrapping. -/
theorem vimage_C2_counterexample :
    processChain (0 : ℕ)
        [fun n => .ok (n + 1), fun _ => .error ("boom")] = .error ("boom") ∧
    processChain (0 : ℕ)
        [fun _ => .error ("boom"), fun n => .ok (n + 1)] = .error ("boom") :=
  ⟨rfl, rfl⟩

/-- C2 (amended): if every step of the prefix succeeds and the next step
fails with error `e`, the pipeline executor returns exactly `.error e` — the
run aborts immediately (the remaining steps `qs` do not influence the
result), no partial-result image accompanies the error, and the error is
propagated unchanged (in particular it does not carry the failing step's
index). -/
theorem vimage_C2_theorem {α : Type} (img mid : α)
    (ps qs : List (α → Except String α)) (p : α → Except String α)
    (e : String) (hpre : processChain img ps = .ok mid)
    (hfail : p mid = .error e) :
    processChain img (ps ++ p :: qs) = .error e := by
  rw [processChain_append, hpre]
  show processChain mid (p :: qs) = .error e
  unfold processChain
  rw [hfail]

/-- C2, witness at a concrete two-step chain over `ℕ`. -/
theorem vimage_C2_witness :
    processChain (0 : ℕ) [] = .ok 0 ∧
    (fun _ : ℕ => (.error ("boom") : Except String ℕ)) 0 = .error ("boom") ∧
    processChain (0 : ℕ)
        ([] ++ (fun _ => .error ("boom")) :: [fun n => .ok (n + 1)])
      = .error ("boom") :=
  ⟨rfl, rfl,
    vimage_C2_theorem 0 0 [] [fun n => .ok (n + 1)]
      (fun _ => .error ("boom")) ("boom") rfl rfl⟩

/-- C7, counterexample. The claim says an out-of-range mosaic percent or
overlay opacity raises an InvalidParameter error immediately rather than the
operation proceeding with a substituted value. Both constructors return bare
processor structs (their Go signatures have no error result at all), and at
the out-of-range arguments `2` they substitute the default `1.0` and
proceed. -/
theorem vimage_C7_counterexample :
    (NewMosaicProcessor [] 2 .left).mosaicPercent = 1 ∧
    (NewOverlayProcessor none 0 0 2 1).opacity = 1 := by
  constructor
  · rw [NewMosaicProcessor]
    norm_num
  · rw [NewOverlayProcessor]
    norm_num

/-- C7 (amended): an out-of-range mosaic percent (outside `[0,1]`) given to
`NewMosaicProcessor`, and an out-of-range opacity given to
`NewOverlayProcessor`, are silently replaced by the default value `1.0`; the
constructors return a processor and raise no error (their signatures have no
error result). -/
theorem vimage_C7_theorem (regions : List MosaicRegion) (d : Direction)
    (ov : Option Img) (x y : ℤ) (percent opacity scale : ℚ)
    (hp : percent < 0 ∨ 1 < percent) (ho : opacity < 0 ∨ 1 < opacity) :
    (NewMosaicProcessor regions percent d).mosaicPercent = 1 ∧
    (NewOverlayProcessor ov x y opacity scale).opacity = 1 := by
  constructor
  · rw [NewMosaicProcessor]
    exact if_pos hp
  · rw [NewOverlayProcessor]
    exact if_pos ho

/-- C7, witness at percent = opacity = 2. -/
theorem vimage_C7_witness :
    ((2 : ℚ) < 0 ∨ 1 < (2 : ℚ)) ∧
    ((NewMosaicProcessor [] 2 .left).mosaicPercent = 1 ∧
      (NewOverlayProcessor none 0 0 2 1).opacity = 1) :=
  ⟨Or.inr one_lt_two,
    vimage_C7_theorem [] .left none 0 0 2 2 1 (Or.inr one_lt_two)
      (Or.inr one_lt_two)⟩

/-- C9: evaluation of `LoadFont` at the failing input. With the harmony
slot's local font file present and parseable (and no download URL, exactly
the situation of `LoadHarmonyOSSansSCBlack`), the first call reads the local
file but — because src/font.go line 62 assigns `notoSansSCWghtFont` instead
of `*font` — leaves the harmony slot empty, so the second call for the very
same slot reads and parses the file again instead of returning a cached
font. This contradicts the claim (and spec): the slot is never populated and
subsequent readers re-fetch. -/
theorem vimage_C9_theorem :
    (LoadFont harmonyEnv .harmony emptyFontCache).1 = .readLocalFile 7 ∧
    ((LoadFont harmonyEnv .harmony emptyFontCache).2).harmonyOSSansSCBlack
      = none ∧
    (LoadFont harmonyEnv .harmony
        (LoadFont harmonyEnv .harmony emptyFontCache).2).1
      = .readLocalFile 7 := by
  decide

/-- C10: `wrapTextByRune` never drops or duplicates a character: the
non-newline characters of the output are exactly those of the input, in
order, for every measuring function (font face), every input and every
positive maximum width. In particular a rune whose measured width alone
exceeds the maximum is still emitted (the `current == ""` alternative starts
a fresh line with it rather than discarding it). -/
theorem vimage_C10_theorem (w : List Char → ℚ) (s : List Char)
    (maxWidth : ℚ) (hpos : 0 < maxWidth) :
    (wrapTextByRune w s maxWidth).filter (fun c => c ≠ '\n')
      = s.filter (fun c => c ≠ '\n') := by
  unfold wrapTextByRune
  have hnl : ∀ l ∈ (splitByNewline s).flatMap (wrapSegGo w maxWidth []),
      '\n' ∉ l := by
    intro l hl
    obtain ⟨seg, hseg, hl2⟩ := List.mem_flatMap.mp hl
    exact wrapSegGo_no_newline w maxWidth seg []
      (splitGo_no_newline s [] (by simp) seg hseg) (by simp) l hl2
  rw [joinWithNewline_filter _ hnl, flatten_flatMap_wrap, splitByNewline,
    splitGo_flatten]
  rfl

/-- C10, witness with a character-count measure and width 1 (so the width
of `['b', 'c']` overflows and a two-rune segment must be split). -/
theorem vimage_C10_witness :
    (0 : ℚ) < 1 ∧
    (wrapTextByRune (fun l => (l.length : ℚ)) ['a', '\n', 'b', 'c'] 1).filter
        (fun c => c ≠ '\n')
      = (['a', '\n', 'b', 'c'].filter (fun c => c ≠ '\n')) :=
  ⟨one_pos,
    vimage_C10_theorem (fun l => (l.length : ℚ)) ['a', '\n', 'b', 'c'] 1
      one_pos⟩

/-! ## Helper lemmas: truncation and narrowing -/

theorem truncNonneg_natCast_div (n d : ℕ) :
    truncNonneg ((n : ℚ) / (d : ℚ)) = n / d := by
  rw [truncNonneg, Int.floor_toNat, Nat.floor_div_nat, Nat.floor_natCast]

theorem truncNonneg_natCast (n : ℕ) : truncNonneg (n : ℚ) = n := by
  rw [truncNonneg, Int.floor_natCast, Int.toNat_natCast]

theorem div256_of_le (c : ℕ) (hc : c ≤ 255) : 257 * c / 256 = c := by
  have h : 257 * c = c + 256 * c := by ring
  rw [h, Nat.add_mul_div_left _ _ (by norm_num : 0 < 256),
    Nat.div_eq_of_lt (by omega)]
  omega

set_option maxRecDepth 20000 in
theorem half_alpha : ∀ a < 256, 257 * a / 2 / 256 = a / 2 := by decide

/-! ## Claim C6: overlay opacity -/

/-- C6, counterexample. At opacity `0` — which satisfies the claim's premise
`opacity < 1` — the Go code (`p.Opacity > 0 && p.Opacity < 1`) draws the
overlay without touching its alpha: the fully opaque pixel keeps alpha 255,
whereas scaling by the opacity factor would give
`truncNonneg (257 * 255 * 0) / 256 = 0`. -/
theorem vimage_C6_counterexample :
    ((overlayAdjust 0 ⟨1, 1, fun _ _ => ⟨255, 0, 0, 255⟩⟩).pix 0 0).a = 255 ∧
    truncNonneg ((257 * 255 : ℕ) * (0 : ℚ)) / 256 = 0 ∧ (255 : ℕ) ≠ 0 := by
  refine ⟨?_, ?_, by norm_num⟩
  · rw [overlayAdjust, if_neg (by norm_num)]
  · rw [mul_zero, truncNonneg]
    norm_num

/-- C6 (amended): for `0 < opacity < 1` (rather than every `opacity < 1`:
at opacity 0 the code deliberately skips the adjustment, treating the zero
value as unset), every pixel of the adjusted overlay keeps its color
channels and has its alpha scaled by the opacity factor before the overlay
is drawn into the context; at `opacity = 1/2` the resulting alpha is exactly
`floor(original_alpha * 0.5)`. -/
theorem vimage_C6_theorem (opacity : ℚ) (h0 : 0 < opacity) (h1 : opacity < 1)
    (m : Img) (x y : ℤ) (hr : (m.get x y).r ≤ 255) (hg : (m.get x y).g ≤ 255)
    (hb : (m.get x y).b ≤ 255) (ha : (m.get x y).a ≤ 255) :
    ((overlayAdjust opacity m).pix x y).r = (m.get x y).r ∧
    ((overlayAdjust opacity m).pix x y).g = (m.get x y).g ∧
    ((overlayAdjust opacity m).pix x y).b = (m.get x y).b ∧
    ((overlayAdjust opacity m).pix x y).a
      = truncNonneg ((257 * (m.get x y).a : ℕ) * opacity) / 256 ∧
    (opacity = 1 / 2 →
      ((overlayAdjust opacity m).pix x y).a = (m.get x y).a / 2) := by
  rw [overlayAdjust, if_pos ⟨h0, h1⟩]
  refine ⟨div256_of_le _ hr, div256_of_le _ hg, div256_of_le _ hb, rfl, ?_⟩
  intro hhalf
  subst hhalf
  show truncNonneg ((257 * (m.get x y).a : ℕ) * (1 / 2)) / 256
    = (m.get x y).a / 2
  rw [mul_one_div, show ((2 : ℚ)) = ((2 : ℕ) : ℚ) from by norm_num,
    truncNonneg_natCast_div]
  exact half_alpha _ (by omega)

/-- C6, witness at opacity 1/2 on a fully opaque pixel. -/
theorem vimage_C6_witness :
    (0 : ℚ) < 1 / 2 ∧ (1 : ℚ) / 2 < 1 ∧
    (((overlayAdjust (1 / 2) ⟨1, 1, fun _ _ => ⟨255, 0, 0, 255⟩⟩).pix 0 0).r
        = ((⟨1, 1, fun _ _ => ⟨255, 0, 0, 255⟩⟩ : Img).get 0 0).r ∧
      ((overlayAdjust (1 / 2) ⟨1, 1, fun _ _ => ⟨255, 0, 0, 255⟩⟩).pix 0 0).g
        = ((⟨1, 1, fun _ _ => ⟨255, 0, 0, 255⟩⟩ : Img).get 0 0).g ∧
      ((overlayAdjust (1 / 2) ⟨1, 1, fun _ _ => ⟨255, 0, 0, 255⟩⟩).pix 0 0).b
        = ((⟨1, 1, fun _ _ => ⟨255, 0, 0, 255⟩⟩ : Img).get 0 0).b ∧
      ((overlayAdjust (1 / 2) ⟨1, 1, fun _ _ => ⟨255, 0, 0, 255⟩⟩).pix 0 0).a
        = truncNonneg
            ((257 * ((⟨1, 1, fun _ _ => ⟨255, 0, 0, 255⟩⟩ : Img).get 0 0).a :
              ℕ) * (1 / 2)) / 256 ∧
      ((1 : ℚ) / 2 = 1 / 2 →
        ((overlayAdjust (1 / 2) ⟨1, 1, fun _ _ => ⟨255, 0, 0, 255⟩⟩).pix 0 0).a
          = ((⟨1, 1, fun _ _ => ⟨255, 0, 0, 255⟩⟩ : Img).get 0 0).a / 2)) :=
  ⟨one_half_pos, one_half_lt_one,
    vimage_C6_theorem (1 / 2) one_half_pos one_half_lt_one
      ⟨1, 1, fun _ _ => ⟨255, 0, 0, 255⟩⟩ 0 0 (by decide) (by decide)
      (by decide) (by decide)⟩

/-! ## Claim C3: circular mask -/

/-- C3: `Circle` errors exactly on non-square inputs; on an `N × N` buffer a
pixel keeps its source color precisely when its squared Euclidean distance
to the buffer center is at most `(N/2)^2` (equivalently, distance at most
`N/2`: both sides of the source's comparison are non-negative and the square
root is monotone) and is fully transparent otherwise; a pixel lying exactly
at the center keeps its color (hence its alpha), and for `N ≥ 1` the corner
pixel `(0,0)` has alpha 0. -/
theorem vimage_C3_theorem (m : Img) (x y : ℤ) (hin : m.inBounds x y) :
    (m.width ≠ m.height →
      Circle m = .error ("image must be square for circular cropping")) ∧
    (m.width = m.height →
      ∃ out, Circle m = .ok out ∧
        out.pix x y =
          (if circleDistSq m.width x y ≤ ((m.width : ℚ) / 2) ^ 2 then
            m.get x y
          else Pixel.transparent) ∧
        (2 * x = (m.width : ℤ) ∧ 2 * y = (m.width : ℤ) →
          out.pix x y = m.get x y) ∧
        (1 ≤ m.width → (out.get 0 0).a = 0)) := by
  constructor
  · intro hne
    rw [Circle, if_pos hne]
  · intro hsq
    refine ⟨_, by rw [Circle, if_neg (by simp [hsq])], rfl, ?_, ?_⟩
    · rintro ⟨hx, hy⟩
      have hxq : (x : ℚ) - (m.width : ℚ) / 2 = 0 := by
        have h2 : ((2 * x : ℤ) : ℚ) = (((m.width : ℤ) : ℤ) : ℚ) := by
          exact_mod_cast congrArg (fun z : ℤ => (z : ℚ)) hx
        push_cast at h2
        linarith
      have hyq : (y : ℚ) - (m.width : ℚ) / 2 = 0 := by
        have h2 : ((2 * y : ℤ) : ℚ) = (((m.width : ℤ) : ℤ) : ℚ) := by
          exact_mod_cast congrArg (fun z : ℤ => (z : ℚ)) hy
        push_cast at h2
        linarith
      have hcond : circleDistSq m.width x y ≤ ((m.width : ℚ) / 2) ^ 2 := by
        rw [circleDistSq, hxq, hyq]
        simpa using sq_nonneg ((m.width : ℚ) / 2)
      show (if circleDistSq m.width x y ≤ ((m.width : ℚ) / 2) ^ 2 then
          m.get x y else Pixel.transparent) = m.get x y
      rw [if_pos hcond]
    · intro hw
      have hwq : (1 : ℚ) ≤ (m.width : ℚ) := by exact_mod_cast hw
      have hpos : 0 < ((m.width : ℚ) / 2) ^ 2 := by positivity
      have hcond : ¬ circleDistSq m.width 0 0 ≤ ((m.width : ℚ) / 2) ^ 2 := by
        rw [circleDistSq]
        push_cast
        intro hcontra
        nlinarith
      unfold Img.get
      split
      · show ((if circleDistSq m.width 0 0 ≤ ((m.width : ℚ) / 2) ^ 2 then
            m.get 0 0 else Pixel.transparent)).a = 0
        rw [if_neg hcond]
        rfl
      · rfl

/-- C3, witness on a 4×4 image whose center pixel `(2, 2)` is checked. -/
theorem vimage_C3_witness :
    (⟨4, 4, fun _ _ => ⟨9, 9, 9, 9⟩⟩ : Img).inBounds 2 2 ∧
    (((⟨4, 4, fun _ _ => ⟨9, 9, 9, 9⟩⟩ : Img).width
        ≠ (⟨4, 4, fun _ _ => ⟨9, 9, 9, 9⟩⟩ : Img).height →
      Circle ⟨4, 4, fun _ _ => ⟨9, 9, 9, 9⟩⟩
        = .error ("image must be square for circular cropping")) ∧
    ((⟨4, 4, fun _ _ => ⟨9, 9, 9, 9⟩⟩ : Img).width
        = (⟨4, 4, fun _ _ => ⟨9, 9, 9, 9⟩⟩ : Img).height →
      ∃ out, Circle ⟨4, 4, fun _ _ => ⟨9, 9, 9, 9⟩⟩ = .ok out ∧
        out.pix 2 2 =
          (if circleDistSq (⟨4, 4, fun _ _ => ⟨9, 9, 9, 9⟩⟩ : Img).width 2 2
              ≤ (((⟨4, 4, fun _ _ => ⟨9, 9, 9, 9⟩⟩ : Img).width : ℚ) / 2) ^ 2
            then (⟨4, 4, fun _ _ => ⟨9, 9, 9, 9⟩⟩ : Img).get 2 2
          else Pixel.transparent) ∧
        (2 * 2 = ((⟨4, 4, fun _ _ => ⟨9, 9, 9, 9⟩⟩ : Img).width : ℤ) ∧
            2 * 2 = ((⟨4, 4, fun _ _ => ⟨9, 9, 9, 9⟩⟩ : Img).width : ℤ) →
          out.pix 2 2 = (⟨4, 4, fun _ _ => ⟨9, 9, 9, 9⟩⟩ : Img).get 2 2) ∧
        (1 ≤ (⟨4, 4, fun _ _ => ⟨9, 9, 9, 9⟩⟩ : Img).width →
          (out.get 0 0).a = 0))) :=
  ⟨by decide, vimage_C3_theorem ⟨4, 4, fun _ _ => ⟨9, 9, 9, 9⟩⟩ 2 2 (by decide)⟩

/-! ## Claim C8: resize round trip -/

theorem goRound_nonneg_eq (q : ℚ) (h : 0 ≤ q) : goRound q = round q := by
  rw [goRound, if_pos h, round_eq]

/-- Round-trip bound for one dimension: upscaling by `r ≥ 1` and back by
`1/r` moves an integer dimension by at most one pixel, and both intermediate
dimensions stay positive. -/
theorem zoom_dim (n : ℤ) (r : ℚ) (hr : 1 ≤ r) (hn : 1 ≤ n) :
    1 ≤ goRound ((n : ℚ) * r) ∧
    1 ≤ goRound ((goRound ((n : ℚ) * r) : ℚ) * (1 / r)) ∧
    |goRound ((goRound ((n : ℚ) * r) : ℚ) * (1 / r)) - n| ≤ 1 := by
  have hr0 : (0 : ℚ) < r := lt_of_lt_of_le one_pos hr
  have hn1 : (1 : ℚ) ≤ (n : ℚ) := by exact_mod_cast hn
  have hnr1 : (1 : ℚ) ≤ (n : ℚ) * r := by nlinarith
  rw [goRound_nonneg_eq _ (by linarith)]
  have habs1 := abs_le.mp (abs_sub_round ((n : ℚ) * r))
  have hA1 : (1 : ℤ) ≤ round ((n : ℚ) * r) := by
    rw [round_eq, Int.le_floor]
    push_cast
    linarith
  have hAq : (1 : ℚ) ≤ ((round ((n : ℚ) * r) : ℤ) : ℚ) := by exact_mod_cast hA1
  have hq2 : (0 : ℚ) ≤ ((round ((n : ℚ) * r) : ℤ) : ℚ) * (1 / r) := by
    positivity
  rw [goRound_nonneg_eq _ hq2]
  have hAr_low : (n : ℚ) - 1 / (2 * r)
      ≤ ((round ((n : ℚ) * r) : ℤ) : ℚ) * (1 / r) := by
    rw [mul_one_div, le_div_iff hr0]
    have expand : ((n : ℚ) - 1 / (2 * r)) * r = (n : ℚ) * r - 1 / 2 := by
      field_simp
      ring
    rw [expand]
    linarith [habs1.1]
  have hAr_high : ((round ((n : ℚ) * r) : ℤ) : ℚ) * (1 / r)
      ≤ (n : ℚ) + 1 / (2 * r) := by
    rw [mul_one_div, div_le_iff hr0]
    have expand : ((n : ℚ) + 1 / (2 * r)) * r = (n : ℚ) * r + 1 / 2 := by
      field_simp
      ring
    rw [expand]
    linarith [habs1.2]
  have hhalf : 1 / (2 * r) ≤ 1 / 2 :=
    one_div_le_one_div_of_le (by norm_num) (by linarith)
  have hB1 : (1 : ℤ)
      ≤ round (((round ((n : ℚ) * r) : ℤ) : ℚ) * (1 / r)) := by
    rw [round_eq, Int.le_floor]
    push_cast
    linarith
  refine ⟨hA1, hB1, ?_⟩
  have habs2 :=
    abs_le.mp (abs_sub_round (((round ((n : ℚ) * r) : ℤ) : ℚ) * (1 / r)))
  have hq : |((round (((round ((n : ℚ) * r) : ℤ) : ℚ) * (1 / r)) - n : ℤ) :
      ℚ)| ≤ 1 := by
    push_cast
    rw [abs_le]
    constructor
    · linarith
    · linarith
  exact_mod_cast hq

/-- C8, counterexample. The claim quantifies over every ratio `r > 0`: at
`r = 1/4` on a 2×2 buffer, `round(2 * 1/4) = 1` (math.Round rounds the half
away from zero) and the return trip with ratio `1/(1/4) = 4` yields a 4×4
buffer, two pixels away from the original — outside the claimed ±1. -/
theorem vimage_C8_counterexample :
    (NewZoomRatioProcessor (1 / 4)).processDims 2 2 = .ok (1, 1) ∧
    (NewZoomRatioProcessor (1 / (1 / 4))).processDims 1 1 = .ok (4, 4) ∧
    ¬ |(4 : ℤ) - 2| ≤ 1 := by
  refine ⟨?_, ?_, by decide⟩
  · have hcalc : calculateTargetSize (NewZoomRatioProcessor (1 / 4)) 2 2
        = (1, 1) := by
      show (goRound (((2 : ℤ) : ℚ) * (1 / 4)),
        goRound (((2 : ℤ) : ℚ) * (1 / 4))) = (1, 1)
      norm_num [goRound]
    simp only [ZoomProcessorS.processDims, hcalc]
    norm_num
  · have hcalc : calculateTargetSize (NewZoomRatioProcessor (1 / (1 / 4))) 1 1
        = (4, 4) := by
      show (goRound (((1 : ℤ) : ℚ) * (1 / (1 / 4))),
        goRound (((1 : ℤ) : ℚ) * (1 / (1 / 4)))) = (4, 4)
      norm_num [goRound]
    simp only [ZoomProcessorS.processDims, hcalc]
    norm_num

/-- C8 (amended): for every `W ≥ 1`, `H ≥ 1` and every ratio `r ≥ 1` (not
every `r > 0`: shrinking first can lose more than one pixel to rounding, as
the counterexample shows), zooming by `r` and then by `1/r` succeeds and
returns dimensions within ±1 pixel of the original. -/
theorem vimage_C8_theorem (w h : ℤ) (r : ℚ) (hr : 1 ≤ r) (hw : 1 ≤ w)
    (hh : 1 ≤ h) :
    ∃ w1 h1 w2 h2 : ℤ,
      (NewZoomRatioProcessor r).processDims w h = .ok (w1, h1) ∧
      (NewZoomRatioProcessor (1 / r)).processDims w1 h1 = .ok (w2, h2) ∧
      |w2 - w| ≤ 1 ∧ |h2 - h| ≤ 1 := by
  obtain ⟨hw1, hw2, hw3⟩ := zoom_dim w r hr hw
  obtain ⟨hh1, hh2, hh3⟩ := zoom_dim h r hr hh
  refine ⟨goRound ((w : ℚ) * r), goRound ((h : ℚ) * r),
    goRound ((goRound ((w : ℚ) * r) : ℚ) * (1 / r)),
    goRound ((goRound ((h : ℚ) * r) : ℚ) * (1 / r)), ?_, ?_, hw3, hh3⟩
  · have hcalc : calculateTargetSize (NewZoomRatioProcessor r) w h
        = (goRound ((w : ℚ) * r), goRound ((h : ℚ) * r)) := rfl
    simp only [ZoomProcessorS.processDims, hcalc]
    rw [if_neg (by push_neg; omega)]
  · have hcalc : calculateTargetSize (NewZoomRatioProcessor (1 / r))
        (goRound ((w : ℚ) * r)) (goRound ((h : ℚ) * r))
        = (goRound ((goRound ((w : ℚ) * r) : ℚ) * (1 / r)),
           goRound ((goRound ((h : ℚ) * r) : ℚ) * (1 / r))) := rfl
    simp only [ZoomProcessorS.processDims, hcalc]
    rw [if_neg (by push_neg; omega)]

/-- C8, witness: a 3×3 buffer zoomed by 2 and back by 1/2. -/
theorem vimage_C8_witness :
    (1 : ℚ) ≤ 2 ∧ (1 : ℤ) ≤ 3 ∧
    (∃ w1 h1 w2 h2 : ℤ,
      (NewZoomRatioProcessor 2).processDims 3 3 = .ok (w1, h1) ∧
      (NewZoomRatioProcessor (1 / 2)).processDims w1 h1 = .ok (w2, h2) ∧
      |w2 - 3| ≤ 1 ∧ |h2 - 3| ≤ 1) :=
  ⟨one_le_two, by decide,
    vimage_C8_theorem 3 3 2 one_le_two (by decide) (by decide)⟩

/-! ## Claim C4: rounded corners -/

theorem cornerFalloff_of_le (radius fade d : ℚ) (h : d ≤ radius) :
    cornerFalloff radius fade d = 1 := by
  rw [cornerFalloff, if_pos h]

theorem cornerFalloff_band (radius fade d : ℚ) (h1 : radius < d)
    (h2 : d ≤ radius + fade) :
    cornerFalloff radius fade d = 1 - (d - radius) / fade := by
  rw [cornerFalloff, if_neg (by linarith), if_pos h2]

theorem cornerFalloff_beyond (radius fade d : ℚ) (h : radius + fade < d)
    (hf : 0 ≤ fade) : cornerFalloff radius fade d = 0 := by
  rw [cornerFalloff, if_neg (by linarith), if_neg (by linarith)]

theorem cornerFalloff_range (radius d : ℚ) :
    0 ≤ cornerFalloff radius (3 / 2) d ∧ cornerFalloff radius (3 / 2) d ≤ 1 := by
  rw [cornerFalloff]
  split_ifs with h1 h2
  · norm_num
  · push_neg at h1
    constructor
    · have hd : (d - radius) / (3 / 2) ≤ 1 := by
        rw [div_le_one (by norm_num)]
        linarith
      linarith
    · have hd : 0 ≤ (d - radius) / (3 / 2) :=
        div_nonneg (by linarith) (by norm_num)
      linarith
  · norm_num

/-- The main branch of `RoundedCornerProcessor.Process` at a positive
radius, pointwise. -/
theorem roundedPix (sqrtA : ℚ → ℚ) (R : ℤ) (m : Img) (x y : ℤ)
    (hR : 0 < R) :
    (roundedCornerProcess sqrtA R m).pix x y
      = (if 0 < getCornerAlpha sqrtA x y m.width m.height
            ((min R (min ((m.width : ℤ) / 2) ((m.height : ℤ) / 2)) : ℤ) : ℚ)
            (3 / 2) then
          (⟨257 * (m.get x y).r / 256, 257 * (m.get x y).g / 256,
            257 * (m.get x y).b / 256,
            truncNonneg ((257 * (m.get x y).a / 256 : ℕ) *
              getCornerAlpha sqrtA x y m.width m.height
                ((min R (min ((m.width : ℤ) / 2) ((m.height : ℤ) / 2)) : ℤ) :
                  ℚ) (3 / 2))⟩ : Pixel)
        else Pixel.transparent) := by
  rw [roundedCornerProcess, if_neg (by omega)]

/-- The identity narrowing: reading with `RGBA()` and storing back with
`>> 8` at opacity factor 1 reproduces the 8-bit pixel. -/
theorem adjustIdentity (c : Pixel) (hr : c.r ≤ 255) (hg : c.g ≤ 255)
    (hb : c.b ≤ 255) (ha : c.a ≤ 255) :
    (⟨257 * c.r / 256, 257 * c.g / 256, 257 * c.b / 256,
      truncNonneg ((257 * c.a / 256 : ℕ) * 1)⟩ : Pixel) = c := by
  rw [mul_one, truncNonneg_natCast, div256_of_le _ hr, div256_of_le _ hg,
    div256_of_le _ hb, div256_of_le _ ha]

/-- In-bounds pixels see no corner square when the radius is zero. -/
theorem cornerDistSq_zero_none (w h : ℕ) (x y : ℤ) (hx0 : 0 ≤ x)
    (hx1 : x < (w : ℤ)) (hy0 : 0 ≤ y) (hy1 : y < (h : ℤ)) :
    cornerDistSq (w : ℚ) (h : ℚ) 0 (x : ℚ) (y : ℚ) = none := by
  have hx0q : (0 : ℚ) ≤ (x : ℚ) := by exact_mod_cast hx0
  have hx1q : (x : ℚ) < (w : ℚ) := by exact_mod_cast hx1
  have hy0q : (0 : ℚ) ≤ (y : ℚ) := by exact_mod_cast hy0
  have hy1q : (y : ℚ) < (h : ℚ) := by exact_mod_cast hy1
  rw [cornerDistSq, if_neg (by rintro ⟨h1, h2⟩; linarith),
    if_neg (by rintro ⟨h1, h2⟩; linarith),
    if_neg (by rintro ⟨h1, h2⟩; linarith),
    if_neg (by rintro ⟨h1, h2⟩; linarith)]

/-- C4: `RoundedCornerProcessor.Process` with radius 0 returns the input
unchanged; a radius greater than `min(width, height) / 2` is silently
clamped to that value (the processor has no failing path); inside each
corner square the pixel's alpha is scaled by the falloff factor of the
computed distance `d` to that corner's circle center — factor 1 for
`d ≤ radius`, descending linearly `1 - (d - radius) / 1.5` on the band
`radius < d ≤ radius + 1.5`, 0 beyond, always within `[0, 1]` — while pixels
outside the four corner squares are unaffected. `sqrtA` abstracts
`math.Sqrt` applied to the squared distance. -/
theorem vimage_C4_theorem (sqrtA : ℚ → ℚ) (m : Img) (x y : ℤ)
    (hin : m.inBounds x y) (hr : (m.get x y).r ≤ 255)
    (hg : (m.get x y).g ≤ 255) (hb : (m.get x y).b ≤ 255)
    (ha : (m.get x y).a ≤ 255) :
    (roundedCornerProcess sqrtA 0 m).pix x y = m.get x y ∧
    (∀ R : ℤ, min ((m.width : ℤ) / 2) ((m.height : ℤ) / 2) < R →
      (roundedCornerProcess sqrtA R m).pix x y
        = (roundedCornerProcess sqrtA
            (min ((m.width : ℤ) / 2) ((m.height : ℤ) / 2)) m).pix x y) ∧
    (∀ R : ℤ, 0 < R →
      (∀ dsq : ℚ,
        cornerDistSq (m.width : ℚ) (m.height : ℚ)
            ((min R (min ((m.width : ℤ) / 2) ((m.height : ℤ) / 2)) : ℤ) : ℚ)
            (x : ℚ) (y : ℚ) = some dsq →
        ((roundedCornerProcess sqrtA R m).pix x y).a
          = truncNonneg (((m.get x y).a : ℕ) *
              cornerFalloff
                ((min R (min ((m.width : ℤ) / 2) ((m.height : ℤ) / 2)) : ℤ) :
                  ℚ) (3 / 2) (sqrtA dsq))) ∧
      (cornerDistSq (m.width : ℚ) (m.height : ℚ)
            ((min R (min ((m.width : ℤ) / 2) ((m.height : ℤ) / 2)) : ℤ) : ℚ)
            (x : ℚ) (y : ℚ) = none →
        (roundedCornerProcess sqrtA R m).pix x y = m.get x y)) ∧
    (∀ radius d : ℚ,
      (d ≤ radius → cornerFalloff radius (3 / 2) d = 1) ∧
      (radius < d → d ≤ radius + 3 / 2 →
        cornerFalloff radius (3 / 2) d = 1 - (d - radius) / (3 / 2)) ∧
      (radius + 3 / 2 < d → cornerFalloff radius (3 / 2) d = 0) ∧
      0 ≤ cornerFalloff radius (3 / 2) d ∧
      cornerFalloff radius (3 / 2) d ≤ 1) := by
  obtain ⟨hx0, hx1, hy0, hy1⟩ := hin
  refine ⟨?_, ?_, ?_, ?_⟩
  · rw [roundedCornerProcess, if_pos (le_refl (0 : ℤ))]
  · intro R hmn
    have hW : 0 ≤ (m.width : ℤ) / 2 := by positivity
    have hH : 0 ≤ (m.height : ℤ) / 2 := by positivity
    by_cases hz : min ((m.width : ℤ) / 2) ((m.height : ℤ) / 2) ≤ 0
    · have hz0 : min ((m.width : ℤ) / 2) ((m.height : ℤ) / 2) = 0 := by omega
      rw [roundedPix sqrtA R m x y (by omega)]
      rw [show roundedCornerProcess sqrtA
          (min ((m.width : ℤ) / 2) ((m.height : ℤ) / 2)) m
          = roundedCornerProcess sqrtA 0 m from by rw [hz0],
        roundedCornerProcess, if_pos (le_refl (0 : ℤ))]
      have hrad : min R (min ((m.width : ℤ) / 2) ((m.height : ℤ) / 2))
          = 0 := by omega
      rw [hrad]
      have hnone := cornerDistSq_zero_none m.width m.height x y hx0 hx1 hy0
        hy1
      have halpha : getCornerAlpha sqrtA x y m.width m.height ((0 : ℤ) : ℚ)
          (3 / 2) = 1 := by
        simp only [getCornerAlpha, Int.cast_zero, hnone]
      rw [halpha, if_pos one_pos]
      exact adjustIdentity _ hr hg hb ha
    · push_neg at hz
      rw [roundedPix sqrtA R m x y (by omega),
        roundedPix sqrtA _ m x y (by omega)]
      rw [min_eq_right hmn.le, min_self]
  · intro R hR
    constructor
    · intro dsq hsome
      rw [roundedPix sqrtA R m x y hR]
      have halpha : getCornerAlpha sqrtA x y m.width m.height
          ((min R (min ((m.width : ℤ) / 2) ((m.height : ℤ) / 2)) : ℤ) : ℚ)
          (3 / 2)
          = cornerFalloff
              ((min R (min ((m.width : ℤ) / 2) ((m.height : ℤ) / 2)) : ℤ) : ℚ)
              (3 / 2) (sqrtA dsq) := by
        simp only [getCornerAlpha, hsome]
      rw [halpha]
      have hnarrow : (257 * (m.get x y).a / 256 : ℕ) = (m.get x y).a :=
        div256_of_le _ ha
      obtain ⟨hlo, hhi⟩ := cornerFalloff_range
        ((min R (min ((m.width : ℤ) / 2) ((m.height : ℤ) / 2)) : ℤ) : ℚ)
        (sqrtA dsq)
      by_cases hpos : 0 < cornerFalloff
          ((min R (min ((m.width : ℤ) / 2) ((m.height : ℤ) / 2)) : ℤ) : ℚ)
          (3 / 2) (sqrtA dsq)
      · rw [if_pos hpos]
        show truncNonneg ((257 * (m.get x y).a / 256 : ℕ) * _) = _
        rw [hnarrow]
      · rw [if_neg hpos]
        push_neg at hpos
        have hzero : cornerFalloff
            ((min R (min ((m.width : ℤ) / 2) ((m.height : ℤ) / 2)) : ℤ) : ℚ)
            (3 / 2) (sqrtA dsq) = 0 := le_antisymm hpos hlo
        rw [hzero, mul_zero]
        show (0 : ℕ) = truncNonneg 0
        rw [truncNonneg, Int.floor_zero, Int.toNat_zero]
    · intro hnone
      rw [roundedPix sqrtA R m x y hR]
      have halpha : getCornerAlpha sqrtA x y m.width m.height
          ((min R (min ((m.width : ℤ) / 2) ((m.height : ℤ) / 2)) : ℤ) : ℚ)
          (3 / 2) = 1 := by
        simp only [getCornerAlpha, hnone]
      rw [halpha, if_pos one_pos]
      exact adjustIdentity _ hr hg hb ha
  · intro radius d
    exact ⟨cornerFalloff_of_le radius (3 / 2) d,
      cornerFalloff_band radius (3 / 2) d,
      fun hbeyond => cornerFalloff_beyond radius (3 / 2) d hbeyond
        (by norm_num),
      (cornerFalloff_range radius d).1, (cornerFalloff_range radius d).2⟩

/-- A 4×4 constant test image for the rounded-corner witness. -/
def img4 : Img := ⟨4, 4, fun _ _ => ⟨10, 20, 30, 40⟩⟩

/-- C4, witness at pixel (1,1) of a 4×4 image with the identity as the
abstract square root. -/
theorem vimage_C4_witness :
    img4.inBounds 1 1 ∧ (img4.get 1 1).r ≤ 255 ∧ (img4.get 1 1).g ≤ 255 ∧
    (img4.get 1 1).b ≤ 255 ∧ (img4.get 1 1).a ≤ 255 ∧
    ((roundedCornerProcess (fun q => q) 0 img4).pix 1 1 = img4.get 1 1 ∧
    (∀ R : ℤ, min ((img4.width : ℤ) / 2) ((img4.height : ℤ) / 2) < R →
      (roundedCornerProcess (fun q => q) R img4).pix 1 1
        = (roundedCornerProcess (fun q => q)
            (min ((img4.width : ℤ) / 2) ((img4.height : ℤ) / 2)) img4).pix
              1 1) ∧
    (∀ R : ℤ, 0 < R →
      (∀ dsq : ℚ,
        cornerDistSq (img4.width : ℚ) (img4.height : ℚ)
            ((min R (min ((img4.width : ℤ) / 2) ((img4.height : ℤ) / 2)) :
              ℤ) : ℚ) ((1 : ℤ) : ℚ) ((1 : ℤ) : ℚ) = some dsq →
        ((roundedCornerProcess (fun q => q) R img4).pix 1 1).a
          = truncNonneg (((img4.get 1 1).a : ℕ) *
              cornerFalloff
                ((min R (min ((img4.width : ℤ) / 2) ((img4.height : ℤ) / 2)) :
                  ℤ) : ℚ) (3 / 2) ((fun q => q) dsq))) ∧
      (cornerDistSq (img4.width : ℚ) (img4.height : ℚ)
            ((min R (min ((img4.width : ℤ) / 2) ((img4.height : ℤ) / 2)) :
              ℤ) : ℚ) ((1 : ℤ) : ℚ) ((1 : ℤ) : ℚ) = none →
        (roundedCornerProcess (fun q => q) R img4).pix 1 1
          = img4.get 1 1)) ∧
    (∀ radius d : ℚ,
      (d ≤ radius → cornerFalloff radius (3 / 2) d = 1) ∧
      (radius < d → d ≤ radius + 3 / 2 →
        cornerFalloff radius (3 / 2) d = 1 - (d - radius) / (3 / 2)) ∧
      (radius + 3 / 2 < d → cornerFalloff radius (3 / 2) d = 0) ∧
      0 ≤ cornerFalloff radius (3 / 2) d ∧
      cornerFalloff radius (3 / 2) d ≤ 1)) :=
  ⟨by decide, by decide, by decide, by decide, by decide,
    vimage_C4_theorem (fun q => q) img4 1 1 (by decide) (by decide)
      (by decide) (by decide) (by decide)⟩

/-! ## Helper lemmas for the mosaic processor -/

theorem writeBlock_width (src dst : Img) (x y ex ey : ℤ) :
    (writeBlock src dst x y ex ey).width = dst.width := by
  rw [writeBlock]
  split <;> rfl

theorem writeBlock_height (src dst : Img) (x y ex ey : ℤ) :
    (writeBlock src dst x y ex ey).height = dst.height := by
  rw [writeBlock]
  split <;> rfl

theorem blockPixelList_length (src : Img) (x y ex ey : ℤ) :
    (blockPixelList src x y ex ey).length
      = (ey - y).toNat * (ex - x).toNat := by
  rw [blockPixelList, List.length_flatMap]
  have h1 : ((List.range (ey - y).toNat).map
        (List.length ∘ fun j : ℕ => (List.range (ex - x).toNat).map
          fun i : ℕ => src.get (x + (i : ℤ)) (y + (j : ℤ))))
      = (List.range (ey - y).toNat).map fun _ => (ex - x).toNat := by
    refine List.map_congr_left fun j _ => ?_
    simp
  rw [h1, List.map_const', List.sum_replicate, smul_eq_mul, List.length_range]

theorem writeBlock_pix_in (src dst : Img) (x y ex ey u v : ℤ)
    (hc : x ≤ u ∧ u < ex ∧ y ≤ v ∧ v < ey) (hin : dst.inBounds u v) :
    (writeBlock src dst x y ex ey).pix u v = mosaicBlockColor src x y ex ey
    := by
  have hlen : 0 < (blockPixelList src x y ex ey).length := by
    rw [blockPixelList_length]
    have h1 : 0 < (ey - y).toNat := by omega
    have h2 : 0 < (ex - x).toNat := by omega
    exact Nat.mul_pos h1 h2
  rw [writeBlock, if_pos hlen]
  show (if x ≤ u ∧ u < ex ∧ y ≤ v ∧ v < ey ∧ dst.inBounds u v then
      mosaicBlockColor src x y ex ey else dst.pix u v)
    = mosaicBlockColor src x y ex ey
  rw [if_pos ⟨hc.1, hc.2.1, hc.2.2.1, hc.2.2.2, hin⟩]

theorem writeBlock_pix_out (src dst : Img) (x y ex ey u v : ℤ)
    (hc : ¬(x ≤ u ∧ u < ex ∧ y ≤ v ∧ v < ey)) :
    (writeBlock src dst x y ex ey).pix u v = dst.pix u v := by
  rw [writeBlock]
  split
  · show (if x ≤ u ∧ u < ex ∧ y ≤ v ∧ v < ey ∧ dst.inBounds u v then
        mosaicBlockColor src x y ex ey else dst.pix u v) = dst.pix u v
    rw [if_neg (by tauto)]
  · rfl

theorem blockStarts_le (aFrom aTo : ℤ) (s : ℕ) (xb : ℤ)
    (h : xb ∈ blockStarts aFrom aTo s) : aFrom ≤ xb := by
  obtain ⟨i, _, rfl⟩ := List.mem_map.mp h
  have : (0 : ℤ) ≤ (i : ℤ) * s := by positivity
  omega

theorem blockStarts_mem (aFrom aTo : ℤ) (s : ℕ) (hs : 0 < s) (i : ℕ)
    (h : (i : ℤ) * s < aTo - aFrom) :
    aFrom + (i : ℤ) * s ∈ blockStarts aFrom aTo s := by
  rw [blockStarts]
  refine List.mem_map.mpr ⟨i, List.mem_range.mpr ?_, rfl⟩
  have hlen : i * s < (aTo - aFrom).toNat := by
    have hcast : ((i * s : ℕ) : ℤ) = (i : ℤ) * s := by push_cast; ring
    omega
  have hstep : (i + 1) * s ≤ (aTo - aFrom).toNat + s - 1 := by
    rw [Nat.succ_mul]
    omega
  exact Nat.lt_of_lt_of_le (Nat.lt_succ_self i)
    ((Nat.le_div_iff_mul_le hs).mpr hstep)

theorem blockStarts_uniq (aFrom aTo : ℤ) (s : ℕ) (i : ℕ) (u xb2 : ℤ)
    (hc1 : aFrom + (i : ℤ) * s ≤ u) (hc2 : u < aFrom + (i : ℤ) * s + s)
    (h2 : xb2 ∈ blockStarts aFrom aTo s)
    (hcov1 : xb2 ≤ u) (hcov2 : u < xb2 + s) :
    xb2 = aFrom + (i : ℤ) * s := by
  obtain ⟨i2, _, rfl⟩ := List.mem_map.mp h2
  have heq : i2 = i := by
    rcases lt_trichotomy i2 i with hlt | heq | hgt
    · exfalso
      have hstep : ((i2 : ℤ) + 1) * s ≤ (i : ℤ) * s :=
        mul_le_mul_of_nonneg_right (by exact_mod_cast hlt) (by positivity)
      have hexp : ((i2 : ℤ) + 1) * s = (i2 : ℤ) * s + s := by ring
      linarith
    · exact heq
    · exfalso
      have hstep : ((i : ℤ) + 1) * s ≤ (i2 : ℤ) * s :=
        mul_le_mul_of_nonneg_right (by exact_mod_cast hgt) (by positivity)
      have hexp : ((i : ℤ) + 1) * s = (i : ℤ) * s + s := by ring
      linarith
  rw [heq]

theorem rowFold_width (src : Img) (yb aTx aTy : ℤ) (s : ℕ) (xs : List ℤ) :
    ∀ d : Img,
      (xs.foldl (fun d2 xb => writeBlock src d2 xb yb (min (xb + (s : ℤ)) aTx)
        (min (yb + (s : ℤ)) aTy)) d).width = d.width := by
  induction xs with
  | nil => intro d; rfl
  | cons a t ih =>
    intro d
    rw [List.foldl_cons, ih, writeBlock_width]

theorem rowFold_height (src : Img) (yb aTx aTy : ℤ) (s : ℕ) (xs : List ℤ) :
    ∀ d : Img,
      (xs.foldl (fun d2 xb => writeBlock src d2 xb yb (min (xb + (s : ℤ)) aTx)
        (min (yb + (s : ℤ)) aTy)) d).height = d.height := by
  induction xs with
  | nil => intro d; rfl
  | cons a t ih =>
    intro d
    rw [List.foldl_cons, ih, writeBlock_height]

theorem rowFold_pix_out (src : Img) (yb aTx aTy : ℤ) (s : ℕ) (u v : ℤ)
    (xs : List ℤ)
    (h : ∀ xb ∈ xs, ¬(xb ≤ u ∧ u < min (xb + (s : ℤ)) aTx ∧ yb ≤ v ∧
      v < min (yb + (s : ℤ)) aTy)) :
    ∀ d : Img,
      (xs.foldl (fun d2 xb => writeBlock src d2 xb yb (min (xb + (s : ℤ)) aTx)
        (min (yb + (s : ℤ)) aTy)) d).pix u v = d.pix u v := by
  induction xs with
  | nil => intro d; rfl
  | cons a t ih =>
    intro d
    rw [List.foldl_cons, ih fun xb hxb => h xb (List.mem_cons_of_mem a hxb),
      writeBlock_pix_out]
    exact h a (List.mem_cons_self a t)

theorem rowFold_pix_in (src : Img) (yb aTx aTy : ℤ) (s : ℕ) (u v xb : ℤ)
    (hc : xb ≤ u ∧ u < min (xb + (s : ℤ)) aTx ∧ yb ≤ v ∧
      v < min (yb + (s : ℤ)) aTy) :
    ∀ xs : List ℤ, xb ∈ xs →
      (∀ xb2 ∈ xs, xb2 ≤ u → u < min (xb2 + (s : ℤ)) aTx → xb2 = xb) →
      ∀ d : Img, d.inBounds u v →
        (xs.foldl (fun d2 xb3 => writeBlock src d2 xb3 yb
          (min (xb3 + (s : ℤ)) aTx) (min (yb + (s : ℤ)) aTy)) d).pix u v
          = mosaicBlockColor src xb yb (min (xb + (s : ℤ)) aTx)
              (min (yb + (s : ℤ)) aTy) := by
  intro xs
  induction xs with
  | nil => intro hmem; exact absurd hmem (List.not_mem_nil xb)
  | cons a t ih =>
    intro hmem huniq d hin
    rw [List.foldl_cons]
    by_cases hat : xb ∈ t
    · refine ih hat (fun xb2 h2 hc1 hc2 =>
        huniq xb2 (List.mem_cons_of_mem a h2) hc1 hc2) _ ?_
      show (writeBlock src d a yb (min (a + (s : ℤ)) aTx)
        (min (yb + (s : ℤ)) aTy)).inBounds u v
      unfold Img.inBounds
      rw [writeBlock_width, writeBlock_height]
      exact hin
    · have hxa : xb = a := by
        rcases List.mem_cons.mp hmem with h | h
        · exact h
        · exact absurd h hat
      subst hxa
      rw [rowFold_pix_out src yb aTx aTy s u v t ?hnone,
        writeBlock_pix_in src d xb yb _ _ u v
          ⟨hc.1, hc.2.1, hc.2.2.1, hc.2.2.2⟩ hin]
      case hnone =>
        intro xb2 h2 hcov
        exact hat
          ((huniq xb2 (List.mem_cons_of_mem xb h2) hcov.1 hcov.2.1) ▸ h2)

theorem colFold_width (src : Img) (aTx aTy : ℤ) (s : ℕ) (xs : List ℤ)
    (ys : List ℤ) :
    ∀ d : Img,
      (ys.foldl (fun d yb => xs.foldl (fun d2 xb => writeBlock src d2 xb yb
        (min (xb + (s : ℤ)) aTx) (min (yb + (s : ℤ)) aTy)) d) d).width
        = d.width := by
  induction ys with
  | nil => intro d; rfl
  | cons a t ih =>
    intro d
    rw [List.foldl_cons, ih, rowFold_width]

theorem colFold_height (src : Img) (aTx aTy : ℤ) (s : ℕ) (xs : List ℤ)
    (ys : List ℤ) :
    ∀ d : Img,
      (ys.foldl (fun d yb => xs.foldl (fun d2 xb => writeBlock src d2 xb yb
        (min (xb + (s : ℤ)) aTx) (min (yb + (s : ℤ)) aTy)) d) d).height
        = d.height := by
  induction ys with
  | nil => intro d; rfl
  | cons a t ih =>
    intro d
    rw [List.foldl_cons, ih, rowFold_height]

theorem colFold_pix_out (src : Img) (aTx aTy : ℤ) (s : ℕ) (u v : ℤ)
    (xs : List ℤ) (ys : List ℤ)
    (h : ∀ yb ∈ ys, ∀ xb ∈ xs, ¬(xb ≤ u ∧ u < min (xb + (s : ℤ)) aTx ∧
      yb ≤ v ∧ v < min (yb + (s : ℤ)) aTy)) :
    ∀ d : Img,
      (ys.foldl (fun d yb => xs.foldl (fun d2 xb => writeBlock src d2 xb yb
        (min (xb + (s : ℤ)) aTx) (min (yb + (s : ℤ)) aTy)) d) d).pix u v
        = d.pix u v := by
  induction ys with
  | nil => intro d; rfl
  | cons a t ih =>
    intro d
    rw [List.foldl_cons, ih fun yb hyb => h yb (List.mem_cons_of_mem a hyb),
      rowFold_pix_out src a aTx aTy s u v xs (h a (List.mem_cons_self a t))]

theorem colFold_pix_in (src : Img) (aTx aTy : ℤ) (s : ℕ) (u v xb yb : ℤ)
    (xs : List ℤ)
    (hc : xb ≤ u ∧ u < min (xb + (s : ℤ)) aTx ∧ yb ≤ v ∧
      v < min (yb + (s : ℤ)) aTy)
    (hxmem : xb ∈ xs)
    (hxuniq : ∀ xb2 ∈ xs, xb2 ≤ u → u < min (xb2 + (s : ℤ)) aTx → xb2 = xb) :
    ∀ ys : List ℤ, yb ∈ ys →
      (∀ yb2 ∈ ys, yb2 ≤ v → v < min (yb2 + (s : ℤ)) aTy → yb2 = yb) →
      ∀ d : Img, d.inBounds u v →
        (ys.foldl (fun d yb3 => xs.foldl (fun d2 xb3 => writeBlock src d2 xb3
          yb3 (min (xb3 + (s : ℤ)) aTx) (min (yb3 + (s : ℤ)) aTy)) d)
            d).pix u v
          = mosaicBlockColor src xb yb (min (xb + (s : ℤ)) aTx)
              (min (yb + (s : ℤ)) aTy) := by
  intro ys
  induction ys with
  | nil => intro hmem; exact absurd hmem (List.not_mem_nil yb)
  | cons a t ih =>
    intro hmem huniq d hin
    rw [List.foldl_cons]
    by_cases hat : yb ∈ t
    · refine ih hat (fun yb2 h2 hc1 hc2 =>
        huniq yb2 (List.mem_cons_of_mem a h2) hc1 hc2) _ ?_
      show (xs.foldl (fun d2 xb3 => writeBlock src d2 xb3 a
        (min (xb3 + (s : ℤ)) aTx) (min (a + (s : ℤ)) aTy)) d).inBounds u v
      unfold Img.inBounds
      rw [rowFold_width, rowFold_height]
      exact hin
    · have hya : yb = a := by
        rcases List.mem_cons.mp hmem with h | h
        · exact h
        · exact absurd h hat
      subst hya
      rw [colFold_pix_out src aTx aTy s u v xs t ?hnone]
      · exact rowFold_pix_in src yb aTx aTy s u v xb hc xs hxmem hxuniq d hin
      case hnone =>
        intro yb2 h2 xb2 _ hcov
        exact hat
          ((huniq yb2 (List.mem_cons_of_mem yb h2) hcov.2.2.1 hcov.2.2.2) ▸
            h2)

theorem Img.get_eq_pix (m : Img) (x y : ℤ) (h : m.inBounds x y) :
    m.get x y = m.pix x y := if_pos h

theorem applyRegionBlocks_pix_out (src dst : Img) (aFx aFy aTx aTy : ℤ)
    (s : ℕ) (u v : ℤ) (h : ¬(aFx ≤ u ∧ u < aTx ∧ aFy ≤ v ∧ v < aTy)) :
    (applyRegionBlocks src dst aFx aFy aTx aTy s).pix u v = dst.pix u v := by
  rw [applyRegionBlocks]
  refine colFold_pix_out src aTx aTy s u v _ _ ?_ dst
  intro yb hyb xb hxb hcov
  exact h ⟨le_trans (blockStarts_le aFx aTx s xb hxb) hcov.1,
    lt_of_lt_of_le hcov.2.1 (min_le_right _ _),
    le_trans (blockStarts_le aFy aTy s yb hyb) hcov.2.2.1,
    lt_of_lt_of_le hcov.2.2.2 (min_le_right _ _)⟩

theorem applyRegionBlocks_width (src dst : Img) (aFx aFy aTx aTy : ℤ)
    (s : ℕ) : (applyRegionBlocks src dst aFx aFy aTx aTy s).width
      = dst.width := by
  rw [applyRegionBlocks]
  exact colFold_width src aTx aTy s _ _ dst

theorem applyRegionBlocks_height (src dst : Img) (aFx aFy aTx aTy : ℤ)
    (s : ℕ) : (applyRegionBlocks src dst aFx aFy aTx aTy s).height
      = dst.height := by
  rw [applyRegionBlocks]
  exact colFold_height src aTx aTy s _ _ dst

theorem applyRegion_pix_out (src dst : Img) (percent : ℚ) (dir : Direction)
    (r : MosaicRegion) (u v : ℤ)
    (h : ¬ regionSkipped r src.width src.height →
      ¬ inRect (blurRect r src.width src.height percent dir) u v) :
    (applyRegion src dst percent dir r).pix u v = dst.pix u v := by
  rw [applyRegion]
  split_ifs with hs
  · rfl
  · refine applyRegionBlocks_pix_out src dst _ _ _ _ _ u v ?_
    intro hcontra
    exact h hs hcontra

theorem applyRegion_width (src dst : Img) (percent : ℚ) (dir : Direction)
    (r : MosaicRegion) :
    (applyRegion src dst percent dir r).width = dst.width := by
  rw [applyRegion]
  split_ifs
  · rfl
  · exact applyRegionBlocks_width src dst _ _ _ _ _

theorem applyRegion_height (src dst : Img) (percent : ℚ) (dir : Direction)
    (r : MosaicRegion) :
    (applyRegion src dst percent dir r).height = dst.height := by
  rw [applyRegion]
  split_ifs
  · rfl
  · exact applyRegionBlocks_height src dst _ _ _ _ _

theorem mosaicSizeOf_pos (aFx aFy aTx aTy : ℤ) :
    0 < mosaicSizeOf aFx aFy aTx aTy := by
  unfold mosaicSizeOf
  dsimp only
  split_ifs <;> omega

theorem mosaicOffset_range (x y : ℤ) (shift : ℕ) :
    -10 ≤ mosaicOffset (mosaicSeed x y) shift ∧
    mosaicOffset (mosaicSeed x y) shift ≤ 10 := by
  have hseed : 0 ≤ mosaicSeed x y := Int.emod_nonneg _ (by positivity)
  have h1 : 0 ≤ mosaicSeed x y / 2 ^ shift % 21 :=
    Int.emod_nonneg _ (by norm_num)
  have h2 : mosaicSeed x y / 2 ^ shift % 21 < 21 :=
    Int.emod_lt_of_pos _ (by norm_num)
  unfold mosaicOffset
  omega

theorem chanSum_eq (f : Pixel → ℕ) (l : List Pixel) :
    chanSum f l = 257 * (l.map f).sum % 2 ^ 32 := by
  rw [chanSum]
  congr 1
  induction l with
  | nil => rfl
  | cons a t ih =>
    simp only [List.map_cons, List.sum_cons, Nat.mul_add]
    rw [ih]

theorem sum_le_255 (l : List Pixel) (f : Pixel → ℕ)
    (hb : ∀ c ∈ l, f c ≤ 255) : (l.map f).sum ≤ 255 * l.length := by
  have hcard := List.sum_le_card_nsmul (l.map f) 255 ?bound
  case bound =>
    intro x hx
    obtain ⟨c, hc, rfl⟩ := List.mem_map.mp hx
    exact hb c hc
  rw [List.length_map, smul_eq_mul] at hcard
  omega

/-- The per-channel mean of the mosaic code (16-bit totals divided by the
pixel count and narrowed by 256) is the arithmetic mean up to strict
integer rounding — `n * avg` lies strictly between `S - n` and `S + n`, with
`S` the sum of the 8-bit channel values and `n` the pixel count — provided
the 16-bit total `257 * S` fits in the `uint32` accumulator. -/
theorem avg16_bounds (l : List Pixel) (f : Pixel → ℕ) (hn : 0 < l.length)
    (hb : ∀ c ∈ l, f c ≤ 255) (hnw : 257 * (l.map f).sum < 2 ^ 32) :
    ((l.map f).sum : ℤ) - l.length
        < (l.length : ℤ) * (avg16 (chanSum f l) l.length : ℤ) ∧
    (l.length : ℤ) * (avg16 (chanSum f l) l.length : ℤ)
        < ((l.map f).sum : ℤ) + l.length := by
  have hS : (l.map f).sum ≤ 255 * l.length := sum_le_255 l f hb
  rw [avg16, chanSum_eq f l, Nat.mod_eq_of_lt hnw, Nat.div_div_eq_div_mul]
  have hXlt : 257 * (l.map f).sum / (l.length * 256) < 256 := by
    rw [Nat.div_lt_iff_lt_mul (by positivity)]
    have h2 : 256 * (l.length * 256) = 65536 * l.length := by ring
    omega
  rw [Nat.mod_eq_of_lt hXlt]
  have hlow : (l.map f).sum / l.length
      ≤ 257 * (l.map f).sum / (l.length * 256) := by
    have h1 : 256 * (l.map f).sum / (l.length * 256)
        ≤ 257 * (l.map f).sum / (l.length * 256) :=
      Nat.div_le_div_right (by omega)
    have h2 : 256 * (l.map f).sum / (l.length * 256)
        = (l.map f).sum / l.length := by
      rw [mul_comm l.length 256, Nat.mul_div_mul_left _ _ (by norm_num)]
    omega
  have hmul_le : 257 * (l.map f).sum / (l.length * 256) * (l.length * 256)
      ≤ 257 * (l.map f).sum := Nat.div_mul_le_self _ _
  have hdm := Nat.div_add_mod (l.map f).sum l.length
  have hmod := Nat.mod_lt (l.map f).sum hn
  constructor
  · have hmono : l.length * ((l.map f).sum / l.length)
        ≤ l.length * (257 * (l.map f).sum / (l.length * 256)) :=
      mul_le_mul_left' hlow l.length
    rw [← Nat.cast_mul]
    generalize hA : l.length * (257 * (l.map f).sum / (l.length * 256)) = A
      at hmono
    generalize l.length * ((l.map f).sum / l.length) = B at hmono hdm
    omega
  · have hrearr : 257 * (l.map f).sum / (l.length * 256) * (l.length * 256)
        = 256 * (l.length * (257 * (l.map f).sum / (l.length * 256))) := by
      ring
    rw [hrearr] at hmul_le
    rw [← Nat.cast_mul]
    generalize l.length * (257 * (l.map f).sum / (l.length * 256)) = A
      at hmul_le
    omega

/-- C5: for every region list, a region that is empty or inverted after
clamping to the buffer bounds is skipped and `MosaicProcessor.Process`
returns successfully (its Go implementation has no failing path at all);
every pixel outside the computed blur rectangles of the non-skipped regions
is identical to the source image in the output. -/
theorem vimage_C5_theorem (p : MosaicProcessorS) (src : Img) (u v : ℤ)
    (hin : src.inBounds u v)
    (h : ∀ r ∈ p.regions, ¬ regionSkipped r src.width src.height →
      ¬ inRect (blurRect r src.width src.height p.mosaicPercent
        p.startDirection) u v) :
    ∃ out, p.process src = .ok out ∧ out.get u v = src.get u v := by
  refine ⟨_, rfl, ?_⟩
  have hfold : ∀ rs : List MosaicRegion,
      (∀ r ∈ rs, ¬ regionSkipped r src.width src.height →
        ¬ inRect (blurRect r src.width src.height p.mosaicPercent
          p.startDirection) u v) →
      ∀ d : Img,
        (rs.foldl (fun d2 r => applyRegion src d2 p.mosaicPercent
          p.startDirection r) d).pix u v = d.pix u v ∧
        (rs.foldl (fun d2 r => applyRegion src d2 p.mosaicPercent
          p.startDirection r) d).width = d.width ∧
        (rs.foldl (fun d2 r => applyRegion src d2 p.mosaicPercent
          p.startDirection r) d).height = d.height := by
    intro rs
    induction rs with
    | nil => exact fun _ d => ⟨rfl, rfl, rfl⟩
    | cons a t ih =>
      intro hrs d
      obtain ⟨hp, hw, hh⟩ :=
        ih (fun r hr => hrs r (List.mem_cons_of_mem a hr))
          (applyRegion src d p.mosaicPercent p.startDirection a)
      refine ⟨?_, ?_, ?_⟩
      · rw [List.foldl_cons, hp,
          applyRegion_pix_out src d _ _ a u v (hrs a (List.mem_cons_self a t))]
      · rw [List.foldl_cons, hw, applyRegion_width]
      · rw [List.foldl_cons, hh, applyRegion_height]
  obtain ⟨hp, hw, hh⟩ := hfold p.regions h
    ⟨src.width, src.height, fun x y => src.get x y⟩
  have hinb : (p.regions.foldl (fun d2 r => applyRegion src d2 p.mosaicPercent
      p.startDirection r) ⟨src.width, src.height, fun x y =>
        src.get x y⟩).inBounds u v := by
    unfold Img.inBounds
    rw [hw, hh]
    exact hin
  rw [Img.get_eq_pix _ u v hinb, hp]

/-- A 2×2 constant test image for the mosaic witnesses. -/
def img2 : Img := ⟨2, 2, fun _ _ => ⟨10, 20, 30, 40⟩⟩

/-- C5, witness: an inverted region (fromX = 80 > toX = 20, the spec's own
example) together with a region lying outside pixel (0,0); the pixel is
unchanged and no error is produced. -/
theorem vimage_C5_witness :
    img2.inBounds 0 0 ∧
    (∀ r ∈ (⟨[⟨80, 0, 20, 2⟩, ⟨1, 1, 2, 2⟩], 1,
        .unknown⟩ : MosaicProcessorS).regions,
      ¬ regionSkipped r img2.width img2.height →
      ¬ inRect (blurRect r img2.width img2.height
        (⟨[⟨80, 0, 20, 2⟩, ⟨1, 1, 2, 2⟩], 1,
          .unknown⟩ : MosaicProcessorS).mosaicPercent
        (⟨[⟨80, 0, 20, 2⟩, ⟨1, 1, 2, 2⟩], 1,
          .unknown⟩ : MosaicProcessorS).startDirection) 0 0) ∧
    (∃ out, (⟨[⟨80, 0, 20, 2⟩, ⟨1, 1, 2, 2⟩], 1,
        .unknown⟩ : MosaicProcessorS).process img2 = .ok out ∧
      out.get 0 0 = img2.get 0 0) :=
  ⟨by decide, by decide,
    vimage_C5_theorem ⟨[⟨80, 0, 20, 2⟩, ⟨1, 1, 2, 2⟩], 1, .unknown⟩ img2 0 0
      (by decide) (by decide)⟩

/-- The tile-level behavior of `MosaicProcessor.Process` for a single
region: every pixel `(u, v)` of the tile with index `(i, j)` of the blurred
rectangle receives the color `mosaicBlockColor src bx byy ex ey`. -/
theorem mosaic_tile_pix (src : Img) (reg : MosaicRegion) (percent : ℚ)
    (dir : Direction) (aFx aFy aTx aTy : ℤ) (s i j : ℕ)
    (bx byy ex ey u v : ℤ)
    (hns : ¬ regionSkipped reg src.width src.height)
    (hrect : blurRect reg src.width src.height percent dir
      = (aFx, aFy, aTx, aTy))
    (hsz : mosaicSizeOf aFx aFy aTx aTy = s)
    (hbx : bx = aFx + (i : ℤ) * s) (hby : byy = aFy + (j : ℤ) * s)
    (hex : ex = min (bx + (s : ℤ)) aTx) (hey : ey = min (byy + (s : ℤ)) aTy)
    (hu1 : bx ≤ u) (hu2 : u < ex) (hv1 : byy ≤ v) (hv2 : v < ey)
    (hin : src.inBounds u v) :
    ∃ out,
      MosaicProcessorS.process ⟨[reg], percent, dir⟩ src = .ok out ∧
      out.pix u v = mosaicBlockColor src bx byy ex ey := by
  subst hex hey hbx hby
  have hs0 : 0 < s := hsz ▸ mosaicSizeOf_pos aFx aFy aTx aTy
  have happ : MosaicProcessorS.process ⟨[reg], percent, dir⟩ src
      = .ok (applyRegionBlocks src
          ⟨src.width, src.height, fun x2 y2 => src.get x2 y2⟩
          aFx aFy aTx aTy s) := by
    show Except.ok (applyRegion src
      ⟨src.width, src.height, fun x2 y2 => src.get x2 y2⟩ percent dir reg) = _
    rw [applyRegion, if_neg hns]
    show Except.ok (applyRegionBlocks src _
      (blurRect reg src.width src.height percent dir).1
      (blurRect reg src.width src.height percent dir).2.1
      (blurRect reg src.width src.height percent dir).2.2.1
      (blurRect reg src.width src.height percent dir).2.2.2
      (mosaicSizeOf (blurRect reg src.width src.height percent dir).1
        (blurRect reg src.width src.height percent dir).2.1
        (blurRect reg src.width src.height percent dir).2.2.1
        (blurRect reg src.width src.height percent dir).2.2.2)) = _
    rw [hrect]
    show Except.ok (applyRegionBlocks src _ aFx aFy aTx aTy
      (mosaicSizeOf aFx aFy aTx aTy)) = _
    rw [hsz]
  refine ⟨_, happ, ?_⟩
  have humin : u < aFx + (i : ℤ) * s + (s : ℤ) :=
    lt_of_lt_of_le hu2 (min_le_left _ _)
  have hvmin : v < aFy + (j : ℤ) * s + (s : ℤ) :=
    lt_of_lt_of_le hv2 (min_le_left _ _)
  have hxmem : aFx + (i : ℤ) * s ∈ blockStarts aFx aTx s := by
    refine blockStarts_mem aFx aTx s hs0 i ?_
    have h5 : u < aTx := lt_of_lt_of_le hu2 (min_le_right _ _)
    linarith
  have hymem : aFy + (j : ℤ) * s ∈ blockStarts aFy aTy s := by
    refine blockStarts_mem aFy aTy s hs0 j ?_
    have h5 : v < aTy := lt_of_lt_of_le hv2 (min_le_right _ _)
    linarith
  have hxuniq : ∀ xb2 ∈ blockStarts aFx aTx s, xb2 ≤ u →
      u < min (xb2 + (s : ℤ)) aTx → xb2 = aFx + (i : ℤ) * s := by
    intro xb2 h2 hc1 hc2
    exact blockStarts_uniq aFx aTx s i u xb2 hu1 humin h2 hc1
      (lt_of_lt_of_le hc2 (min_le_left _ _))
  have hyuniq : ∀ yb2 ∈ blockStarts aFy aTy s, yb2 ≤ v →
      v < min (yb2 + (s : ℤ)) aTy → yb2 = aFy + (j : ℤ) * s := by
    intro yb2 h2 hc1 hc2
    exact blockStarts_uniq aFy aTy s j v yb2 hv1 hvmin h2 hc1
      (lt_of_lt_of_le hc2 (min_le_left _ _))
  rw [applyRegionBlocks]
  exact colFold_pix_in src aTx aTy s u v (aFx + (i : ℤ) * s)
    (aFy + (j : ℤ) * s) (blockStarts aFx aTx s) ⟨hu1, hu2, hv1, hv2⟩ hxmem
    hxuniq (blockStarts aFy aTy s) hymem hyuniq
    ⟨src.width, src.height, fun x2 y2 => src.get x2 y2⟩ hin

/-- C1 (amended): for a mosaic tile with top-left corner `(bx, byy)` — the
tile with index `(i, j)` of the blurred rectangle, clipped to it — every
pixel `(u, v)` of the tile receives the one color `mosaicBlockColor src bx
byy ex ey` (the right-hand side does not depend on `(u, v)`, so all pixels
of the tile are identical). That color is, per channel, `clampUint8` of the
narrowed average plus the seeded offset for R, G, B (shifts 0, 8, 16) and
the unmodified narrowed average for alpha; the seed is the claimed linear
congruential formula and every offset lies in `[-10, 10]`. The narrowed
average is the per-channel arithmetic mean of the tile's source pixels up
to strict integer rounding (`S - n < n·avg < S + n`) whenever the channel's
16-bit total `257 * S` fits in the `uint32` accumulator — in particular for
every tile of at most 65536 pixels; on larger tiles (reachable, since the
tile size grows to a tenth of the blurred rectangle) the accumulator wraps
modulo `2 ^ 32` and the written color can diverge from the mean, as the
counterexample shows. The block color is a function of the tile's source
pixels and coordinates alone, so the same input region always yields the
same output. -/
theorem vimage_C1_theorem (src : Img) (reg : MosaicRegion) (percent : ℚ)
    (dir : Direction) (aFx aFy aTx aTy : ℤ) (s i j : ℕ)
    (bx byy ex ey u v : ℤ)
    (hns : ¬ regionSkipped reg src.width src.height)
    (hrect : blurRect reg src.width src.height percent dir
      = (aFx, aFy, aTx, aTy))
    (hsz : mosaicSizeOf aFx aFy aTx aTy = s)
    (hbx : bx = aFx + (i : ℤ) * s) (hby : byy = aFy + (j : ℤ) * s)
    (hex : ex = min (bx + (s : ℤ)) aTx) (hey : ey = min (byy + (s : ℤ)) aTy)
    (hu1 : bx ≤ u) (hu2 : u < ex) (hv1 : byy ≤ v) (hv2 : v < ey)
    (hin : src.inBounds u v) :
    ∃ out,
      MosaicProcessorS.process ⟨[reg], percent, dir⟩ src = .ok out ∧
      out.pix u v = mosaicBlockColor src bx byy ex ey ∧
      mosaicSeed bx byy = (bx * 1103515245 + byy * 69069) % 2 ^ 31 ∧
      (∀ shift : ℕ, -10 ≤ mosaicOffset (mosaicSeed bx byy) shift ∧
        mosaicOffset (mosaicSeed bx byy) shift ≤ 10) ∧
      (mosaicBlockColor src bx byy ex ey).r
        = clampUint8 ((avg16 (chanSum Pixel.r (blockPixelList src bx byy ex
            ey)) (blockPixelList src bx byy ex ey).length : ℤ)
          + mosaicOffset (mosaicSeed bx byy) 0) ∧
      (mosaicBlockColor src bx byy ex ey).g
        = clampUint8 ((avg16 (chanSum Pixel.g (blockPixelList src bx byy ex
            ey)) (blockPixelList src bx byy ex ey).length : ℤ)
          + mosaicOffset (mosaicSeed bx byy) 8) ∧
      (mosaicBlockColor src bx byy ex ey).b
        = clampUint8 ((avg16 (chanSum Pixel.b (blockPixelList src bx byy ex
            ey)) (blockPixelList src bx byy ex ey).length : ℤ)
          + mosaicOffset (mosaicSeed bx byy) 16) ∧
      (mosaicBlockColor src bx byy ex ey).a
        = avg16 (chanSum Pixel.a (blockPixelList src bx byy ex ey))
            (blockPixelList src bx byy ex ey).length ∧
      (∀ f : Pixel → ℕ,
        (∀ c ∈ blockPixelList src bx byy ex ey, f c ≤ 255) →
        257 * ((blockPixelList src bx byy ex ey).map f).sum < 2 ^ 32 →
        (((blockPixelList src bx byy ex ey).map f).sum : ℤ)
            - (blockPixelList src bx byy ex ey).length
          < ((blockPixelList src bx byy ex ey).length : ℤ)
              * (avg16 (chanSum f (blockPixelList src bx byy ex ey))
                  (blockPixelList src bx byy ex ey).length : ℤ) ∧
        ((blockPixelList src bx byy ex ey).length : ℤ)
            * (avg16 (chanSum f (blockPixelList src bx byy ex ey))
                (blockPixelList src bx byy ex ey).length : ℤ)
          < (((blockPixelList src bx byy ex ey).map f).sum : ℤ)
              + (blockPixelList src bx byy ex ey).length) ∧
      (∀ f : Pixel → ℕ,
        (∀ c ∈ blockPixelList src bx byy ex ey, f c ≤ 255) →
        (blockPixelList src bx byy ex ey).length ≤ 65536 →
        (((blockPixelList src bx byy ex ey).map f).sum : ℤ)
            - (blockPixelList src bx byy ex ey).length
          < ((blockPixelList src bx byy ex ey).length : ℤ)
              * (avg16 (chanSum f (blockPixelList src bx byy ex ey))
                  (blockPixelList src bx byy ex ey).length : ℤ) ∧
        ((blockPixelList src bx byy ex ey).length : ℤ)
            * (avg16 (chanSum f (blockPixelList src bx byy ex ey))
                (blockPixelList src bx byy ex ey).length : ℤ)
          < (((blockPixelList src bx byy ex ey).map f).sum : ℤ)
              + (blockPixelList src bx byy ex ey).length) ∧
      (∀ src2 : Img,
        blockPixelList src2 bx byy ex ey = blockPixelList src bx byy ex ey →
        mosaicBlockColor src2 bx byy ex ey
          = mosaicBlockColor src bx byy ex ey) := by
  obtain ⟨out, hok, hpix⟩ := mosaic_tile_pix src reg percent dir aFx aFy aTx
    aTy s i j bx byy ex ey u v hns hrect hsz hbx hby hex hey hu1 hu2 hv1 hv2
    hin
  have hlen : 0 < (blockPixelList src bx byy ex ey).length := by
    rw [blockPixelList_length]
    have h3 : 0 < (ey - byy).toNat := by omega
    have h4 : 0 < (ex - bx).toNat := by omega
    exact Nat.mul_pos h3 h4
  refine ⟨out, hok, hpix, rfl,
    fun shift => mosaicOffset_range _ _ shift, rfl, rfl, rfl, rfl,
    fun f hfb hnw => avg16_bounds _ f hlen hfb hnw,
    fun f hfb h65 => avg16_bounds _ f hlen hfb ?_,
    fun src2 h2 => by simp only [mosaicBlockColor, h2]⟩
  have hsle := sum_le_255 (blockPixelList src bx byy ex ey) f hfb
  omega

/-- C1, witness: the (single) tile of a full-image region on the 2×2 test
image; tile index (0,0), tile size 10 clipped to the 2×2 rectangle. -/
theorem vimage_C1_witness :
    (¬ regionSkipped ⟨0, 0, 2, 2⟩ img2.width img2.height) ∧
    blurRect ⟨0, 0, 2, 2⟩ img2.width img2.height 1 .unknown = (0, 0, 2, 2) ∧
    mosaicSizeOf 0 0 2 2 = 10 ∧
    (0 : ℤ) = 0 + ((0 : ℕ) : ℤ) * (10 : ℕ) ∧
    (2 : ℤ) = min ((0 : ℤ) + ((10 : ℕ) : ℤ)) 2 ∧
    (0 : ℤ) ≤ 0 ∧ (0 : ℤ) < 2 ∧ img2.inBounds 0 0 ∧
    (∃ out,
      MosaicProcessorS.process ⟨[⟨0, 0, 2, 2⟩], 1, .unknown⟩ img2
        = .ok out ∧
      out.pix 0 0 = mosaicBlockColor img2 0 0 2 2 ∧
      mosaicSeed 0 0 = ((0 : ℤ) * 1103515245 + (0 : ℤ) * 69069) % 2 ^ 31 ∧
      (∀ shift : ℕ, -10 ≤ mosaicOffset (mosaicSeed 0 0) shift ∧
        mosaicOffset (mosaicSeed 0 0) shift ≤ 10) ∧
      (mosaicBlockColor img2 0 0 2 2).r
        = clampUint8 ((avg16 (chanSum Pixel.r (blockPixelList img2 0 0 2 2))
            (blockPixelList img2 0 0 2 2).length : ℤ)
          + mosaicOffset (mosaicSeed 0 0) 0) ∧
      (mosaicBlockColor img2 0 0 2 2).g
        = clampUint8 ((avg16 (chanSum Pixel.g (blockPixelList img2 0 0 2 2))
            (blockPixelList img2 0 0 2 2).length : ℤ)
          + mosaicOffset (mosaicSeed 0 0) 8) ∧
      (mosaicBlockColor img2 0 0 2 2).b
        = clampUint8 ((avg16 (chanSum Pixel.b (blockPixelList img2 0 0 2 2))
            (blockPixelList img2 0 0 2 2).length : ℤ)
          + mosaicOffset (mosaicSeed 0 0) 16) ∧
      (mosaicBlockColor img2 0 0 2 2).a
        = avg16 (chanSum Pixel.a (blockPixelList img2 0 0 2 2))
            (blockPixelList img2 0 0 2 2).length ∧
      (∀ f : Pixel → ℕ,
        (∀ c ∈ blockPixelList img2 0 0 2 2, f c ≤ 255) →
        257 * ((blockPixelList img2 0 0 2 2).map f).sum < 2 ^ 32 →
        (((blockPixelList img2 0 0 2 2).map f).sum : ℤ)
            - (blockPixelList img2 0 0 2 2).length
          < ((blockPixelList img2 0 0 2 2).length : ℤ)
              * (avg16 (chanSum f (blockPixelList img2 0 0 2 2))
                  (blockPixelList img2 0 0 2 2).length : ℤ) ∧
        ((blockPixelList img2 0 0 2 2).length : ℤ)
            * (avg16 (chanSum f (blockPixelList img2 0 0 2 2))
                (blockPixelList img2 0 0 2 2).length : ℤ)
          < (((blockPixelList img2 0 0 2 2).map f).sum : ℤ)
              + (blockPixelList img2 0 0 2 2).length) ∧
      (∀ f : Pixel → ℕ,
        (∀ c ∈ blockPixelList img2 0 0 2 2, f c ≤ 255) →
        (blockPixelList img2 0 0 2 2).length ≤ 65536 →
        (((blockPixelList img2 0 0 2 2).map f).sum : ℤ)
            - (blockPixelList img2 0 0 2 2).length
          < ((blockPixelList img2 0 0 2 2).length : ℤ)
              * (avg16 (chanSum f (blockPixelList img2 0 0 2 2))
                  (blockPixelList img2 0 0 2 2).length : ℤ) ∧
        ((blockPixelList img2 0 0 2 2).length : ℤ)
            * (avg16 (chanSum f (blockPixelList img2 0 0 2 2))
                (blockPixelList img2 0 0 2 2).length : ℤ)
          < (((blockPixelList img2 0 0 2 2).map f).sum : ℤ)
              + (blockPixelList img2 0 0 2 2).length) ∧
      (∀ src2 : Img,
        blockPixelList src2 0 0 2 2 = blockPixelList img2 0 0 2 2 →
        mosaicBlockColor src2 0 0 2 2 = mosaicBlockColor img2 0 0 2 2)) :=
  ⟨by decide, by decide, by decide, by decide, by decide, by decide,
    by decide, by decide,
    vimage_C1_theorem img2 ⟨0, 0, 2, 2⟩ 1 .unknown 0 0 2 2 10 0 0 0 0 2 2 0 0
      (by decide) (by decide) (by decide) (by decide) (by decide) (by decide)
      (by decide) (by decide) (by decide) (by decide) (by decide)
      (by decide)⟩

theorem flatMap_replicate {α β : Type} (m : ℕ) (b : β) :
    ∀ (L : List α) (g : α → List β),
      (∀ a ∈ L, g a = List.replicate m b) →
      L.flatMap g = List.replicate (L.length * m) b := by
  intro L
  induction L with
  | nil =>
    intro g _
    rw [List.flatMap_nil, List.length_nil, Nat.zero_mul]
    rfl
  | cons a t ih =>
    intro g hg
    rw [List.flatMap_cons, hg a (List.mem_cons_self a t),
      ih g fun a2 h2 => hg a2 (List.mem_cons_of_mem a h2),
      ← List.replicate_add]
    congr 1
    rw [List.length_cons]
    ring

theorem blockPixelList_const (c : Pixel) (w h : ℕ) (x y ex ey : ℤ)
    (hx : 0 ≤ x) (hy : 0 ≤ y) (hex : ex ≤ (w : ℤ)) (hey : ey ≤ (h : ℤ)) :
    blockPixelList ⟨w, h, fun _ _ => c⟩ x y ex ey
      = List.replicate ((ey - y).toNat * (ex - x).toNat) c := by
  rw [blockPixelList]
  have hrow : ∀ j ∈ List.range (ey - y).toNat,
      ((List.range (ex - x).toNat).map fun i : ℕ =>
        (⟨w, h, fun _ _ => c⟩ : Img).get (x + (i : ℤ)) (y + (j : ℤ)))
      = List.replicate (ex - x).toNat c := by
    intro j hj
    have hj2 := List.mem_range.mp hj
    have hpt : ∀ i ∈ List.range (ex - x).toNat,
        (⟨w, h, fun _ _ => c⟩ : Img).get (x + (i : ℤ)) (y + (j : ℤ)) = c := by
      intro i hi
      have hi2 := List.mem_range.mp hi
      have hb : (⟨w, h, fun _ _ => c⟩ : Img).inBounds (x + (i : ℤ))
          (y + (j : ℤ)) := by
        unfold Img.inBounds
        dsimp only
        refine ⟨by omega, by omega, by omega, by omega⟩
      rw [Img.get, if_pos hb]
    rw [List.map_congr_left hpt, List.map_const', List.length_range]
  rw [show ((List.range (ey - y).toNat).flatMap fun j : ℕ =>
      (List.range (ex - x).toNat).map fun i : ℕ =>
        (⟨w, h, fun _ _ => c⟩ : Img).get (x + (i : ℤ)) (y + (j : ℤ)))
    = List.replicate ((List.range (ey - y).toNat).length * (ex - x).toNat) c
    from flatMap_replicate ((ex - x).toNat) c _ _ hrow, List.length_range]

theorem chanSum_replicate (f : Pixel → ℕ) (N : ℕ) (c : Pixel) :
    chanSum f (List.replicate N c) = N * (257 * f c) % 2 ^ 32 := by
  rw [chanSum_eq, List.map_replicate, List.sum_replicate, smul_eq_mul]
  congr 1
  ring

/-- A fully opaque white 4000×4000 image: large enough that a full-image
mosaic uses 400×400 tiles (160000 pixels), overflowing the `uint32` channel
accumulators. -/
def bigImg : Img := ⟨4000, 4000, fun _ _ => ⟨255, 255, 255, 255⟩⟩

/-- C1, counterexample. The claim says every tile pixel receives the
per-channel arithmetic mean plus an offset in `[-10, 10]` on R, G, B and the
unmodified mean on alpha. On the fully opaque white `bigImg` with a
full-image region, the tile size is `4000 / 10 = 400`, so the first tile has
160000 pixels and each channel total is `160000 * 65535 = 10485600000`,
which wraps modulo `2 ^ 32` in the `uint32` accumulators to `1895665408`;
the narrowed average becomes 46 instead of the true mean 255, and the tile
is written as `(36, 36, 36, 46)` — the alpha 46 differs from the arithmetic
mean 255 of the tile's (all-255) source alphas, with no offset allowance at
all on alpha (and 36 is outside mean ± 10 on R, G, B). -/
theorem vimage_C1_counterexample :
    ∃ out,
      MosaicProcessorS.process ⟨[⟨0, 0, 4000, 4000⟩], 1, .unknown⟩ bigImg
        = .ok out ∧
      out.pix 0 0 = mosaicBlockColor bigImg 0 0 400 400 ∧
      mosaicBlockColor bigImg 0 0 400 400 = ⟨36, 36, 36, 46⟩ ∧
      (∀ c ∈ blockPixelList bigImg 0 0 400 400, c.a = 255) ∧
      (46 : ℕ) ≠ 255 := by
  obtain ⟨out, hok, hpix⟩ := mosaic_tile_pix bigImg ⟨0, 0, 4000, 4000⟩ 1
    .unknown 0 0 4000 4000 400 0 0 0 0 400 400 0 0 (by decide) (by decide)
    (by decide) (by decide) (by decide) (by decide) (by decide) (by decide)
    (by decide) (by decide) (by decide) (by decide)
  have hbl : blockPixelList bigImg 0 0 400 400
      = List.replicate 160000 (⟨255, 255, 255, 255⟩ : Pixel) := by
    have h0 := blockPixelList_const ⟨255, 255, 255, 255⟩ 4000 4000 0 0 400
      400 (by norm_num) (by norm_num) (by norm_num) (by norm_num)
    rw [show (((400 : ℤ) - 0).toNat * ((400 : ℤ) - 0).toNat) = 160000 from by
      decide] at h0
    exact h0
  have hcol : mosaicBlockColor bigImg 0 0 400 400
      = ⟨36, 36, 36, 46⟩ := by
    simp only [mosaicBlockColor, hbl, List.length_replicate,
      chanSum_replicate]
    norm_num [avg16, mosaicSeed, mosaicOffset, clampUint8, Pixel.mk.injEq]
    all_goals decide
  refine ⟨out, hok, hpix, hcol, ?_, by norm_num⟩
  intro c hc
  rw [hbl] at hc
  rw [List.eq_of_mem_replicate hc]

end Vimage
